import Mathlib

/-!
Verification development for the room-detection engine
(backend/src/room_detector.py).

Coordinates are modelled as exact rationals: Python floats are dyadic
rationals, and every claim checked here concerns either exact comparisons
and branch structure (which rationals model faithfully) or properties
stated up to floating tolerance.  Decimal literals from the source
(0.8, 3.14159, ...) are taken at face value as rationals.

The geometry library (shapely) and the graph library (networkx) are not
part of the repository; their results are modelled as explicit
environment records (ShEnv, CycEnv) whose fields carry exactly the data
the source reads back from those libraries (validity flags, areas,
perimeters, enumerated cycles and paths).  Theorems either hold for
every environment, or take soundness hypotheses that state the
libraries' documented contracts (a returned simple cycle is a cycle of
the graph, a polygonized ring runs along the input segments, ...), or
instantiate a concrete environment whose values are justified next to
its definition.

Python loops that conditionally append to a result list are rendered as
List.filter / List.filterMap; loops with genuine state (the seen-set of
cycle keys) are rendered as List.foldl over an explicit state.
-/

namespace RoomDetection

/-- A 2-D point, as an exact pair of rationals. -/
abbrev Point : Type := ℚ × ℚ

/-- Wall segment record (parser.WallSegment): start/end points and the
load-bearing flag (irrelevant to detection). -/
structure WallSegment where
  start : Point
  stop : Point
  is_load_bearing : Bool := false
deriving DecidableEq, Repr

/-- Squared Euclidean distance between two points. -/
def dsq (p q : Point) : ℚ :=
  (p.1 - q.1) * (p.1 - q.1) + (p.2 - q.2) * (p.2 - q.2)

/-- Exact rational rendering of the source's distance test
`(dx**2 + dy**2)**0.5 <= tolerance` (room_detector.py line 33-34):
for s >= 0, sqrt s <= t holds iff 0 <= t and s <= t*t. -/
def sqrtLeB (s t : ℚ) : Bool :=
  decide (0 ≤ t ∧ s ≤ t * t)

/-- The 2-D cross product used in collinearity and shoelace arguments. -/
def cross (u v : Point) : ℚ := u.1 * v.2 - u.2 * v.1

/-- Membership of a point in a closed wall segment: p = start + t*(stop-start)
for some parameter t in [0,1]. -/
def SegOn (p : Point) (s : WallSegment) : Prop :=
  ∃ t : ℚ, 0 ≤ t ∧ t ≤ 1 ∧ p = s.start + t • (s.stop - s.start)

/-- Successor index in a cyclic list of length n. -/
def cnext {n : ℕ} (i : Fin n) : Fin n :=
  ⟨(i.1 + 1) % n, Nat.mod_lt _ (Nat.lt_of_le_of_lt (Nat.zero_le _) i.2)⟩

/-- Twice the signed (shoelace) area of the closed coordinate loop c:
the sum of cross products over cyclically consecutive vertices.
Shapely's polygon area is the absolute value of half this quantity. -/
def signedArea2 (c : List Point) : ℚ :=
  ∑ i : Fin c.length, cross (c.get i) (c.get (cnext i))

/-! ## Endpoint snapping (room_detector.py lines 9-44) -/

/-- Append a point to a list unless already present.  Used to collect the
set of distinct endpoints in first-occurrence order (the Python code uses
an unordered set; every property proved here is order-independent). -/
def insertIfNew (acc : List Point) (p : Point) : List Point :=
  if p ∈ acc then acc else acc ++ [p]

/-- All distinct segment endpoints, in first-occurrence order
(lines 20-23). -/
def endpointsOf (segs : List WallSegment) : List Point :=
  segs.foldl (fun acc s => insertIfNew (insertIfNew acc s.start) s.stop) []

/-- One step of the greedy snapping loop (lines 29-42): find the first
canonical point within tolerance; otherwise the point becomes canonical.
State: (canonical points so far, association list endpoint -> canonical). -/
def snapStep (tol : ℚ) (st : List Point × List (Point × Point)) (p : Point) :
    List Point × List (Point × Point) :=
  match st.1.find? (fun c => sqrtLeB (dsq p c) tol) with
  | some c => (st.1, st.2 ++ [(p, c)])
  | none => (st.1 ++ [p], st.2 ++ [(p, p)])

/-- snap_endpoints (lines 9-44): association list mapping each distinct
endpoint to its canonical point. -/
def snap_endpoints (segs : List WallSegment) (tol : ℚ) : List (Point × Point) :=
  ((endpointsOf segs).foldl (snapStep tol) ([], [])).2

/-- First-match lookup in an association list of points. -/
def alookup : List (Point × Point) → Point → Option Point
  | [], _ => none
  | (k, v) :: t, p => if k = p then some v else alookup t p

/-- The snapping function induced by the endpoint map: endpoints are sent
to their canonical point, other points are untouched. -/
def snapPoint (segs : List WallSegment) (tol : ℚ) (p : Point) : Point :=
  (alookup (snap_endpoints segs tol) p).getD p

/-! ## Wall graph (room_detector.py lines 47-73)

networkx's nx.Graph is a simple undirected graph: add_node is idempotent
and add_edge between an already-connected node pair only replaces the
edge attributes, so the edge list below is kept free of duplicate
unordered pairs. -/

/-- Undirected graph with rational-point nodes. -/
structure Graph where
  nodes : List Point
  edges : List (Point × Point)
deriving DecidableEq, Repr

/-- Does the edge list contain the unordered pair (u, v)? -/
def edgeMemB (es : List (Point × Point)) (u v : Point) : Bool :=
  es.any (fun e => (decide (e.1 = u) && decide (e.2 = v)) ||
                   (decide (e.1 = v) && decide (e.2 = u)))

/-- G.add_node: insert a node if not present. -/
def addNode (g : Graph) (p : Point) : Graph :=
  if p ∈ g.nodes then g else ⟨g.nodes ++ [p], g.edges⟩

/-- G.add_edge on nx.Graph: a second edge between the same unordered node
pair is collapsed (only the attributes are replaced, which detection
never reads back). -/
def addEdge (g : Graph) (u v : Point) : Graph :=
  if edgeMemB g.edges u v then g else ⟨g.nodes, g.edges ++ [(u, v)]⟩

/-- build_wall_graph (lines 47-73): snap both endpoints of every segment,
add them as nodes and add the connecting edge. -/
def build_wall_graph (segs : List WallSegment) (tol : ℚ) : Graph :=
  segs.foldl (fun g s =>
    let u := snapPoint segs tol s.start
    let v := snapPoint segs tol s.stop
    addEdge (addNode (addNode g u) v) u v) ⟨[], []⟩

/-- Undirected-pair deduplication of a pair list, mirroring repeated
addEdge calls. -/
def undirDedup (l : List (Point × Point)) : List (Point × Point) :=
  l.foldl (fun es e => if edgeMemB es e.1 e.2 then es else es ++ [e]) []

/-- Adjacency in a graph: the unordered pair is among the edges. -/
def Adj (g : Graph) (u v : Point) : Prop := edgeMemB g.edges u v = true

instance (g : Graph) : DecidableRel (Adj g) := fun u v =>
  inferInstanceAs (Decidable (edgeMemB g.edges u v = true))

/-- graph.remove_edge(u, v): drop the unordered pair from the edge list,
keeping the node set. -/
def removeEdge (g : Graph) (u v : Point) : Graph :=
  ⟨g.nodes, g.edges.filter (fun e =>
    !((decide (e.1 = u) && decide (e.2 = v)) ||
      (decide (e.1 = v) && decide (e.2 = u))))⟩

/-- The cyclic closure of a vertex list: appending the first vertex so
that Chain' also checks the wrap-around step. -/
def cycClose (c : List Point) : List Point := c ++ c.take 1

/-- Executable chain check: consecutive list entries are adjacent in g. -/
def chainAdjB (g : Graph) : List Point → Bool
  | [] => true
  | [_] => true
  | a :: b :: t => edgeMemB g.edges a b && chainAdjB g (b :: t)

/-- Decidable check that c is a simple cycle of g: at least 3 pairwise
distinct vertices, cyclically consecutive vertices adjacent in g. -/
def isCycleListB (g : Graph) (c : List Point) : Bool :=
  decide (3 ≤ c.length) && decide c.Nodup && chainAdjB g (cycClose c)

/-- All insertions of a point into a list (helper for the brute-force
permutation enumeration below). -/
def insertsOf (a : Point) : List Point → List (List Point)
  | [] => [[a]]
  | b :: t => (a :: b :: t) :: (insertsOf a t).map (fun l => b :: l)

/-- All permutations of a point list (structural recursion). -/
def permsOf : List Point → List (List Point)
  | [] => [[]]
  | a :: t => (permsOf t).bind (insertsOf a)

/-- Brute-force check whether g has any simple cycle on at least 3 nodes
(used to certify that concrete graphs handed to the traversal fallback
are genuinely acyclic, matching what networkx would enumerate). -/
def hasAnySimpleCycle (g : Graph) : Bool :=
  g.nodes.sublists.any (fun s => (permsOf s).any (fun c => isCycleListB g c))

/-! ## Shapely environment

The source builds shapely Polygon objects and reads back is_valid, area,
length (perimeter), buffer(0) repairs and containment tests.  Those
library results are modelled by an explicit environment. -/

/-- A polygon returned by shapely's polygonize: validity flag, float
area, and the exterior ring coordinates (closed, first = last). -/
structure RawPoly where
  is_valid : Bool
  area : ℚ
  exterior : List Point
deriving DecidableEq, Repr

/-- What the source reads off a shapely polygon built from a coordinate
loop: whether construction succeeded (ctor_ok = false models the
exception paths), validity, area and perimeter. -/
structure PolyProps where
  ctor_ok : Bool
  is_valid : Bool
  area : ℚ
  plen : ℚ
deriving DecidableEq, Repr

/-- Environment of shapely results consumed by the detector:
polygonize over the (split) input segments, Polygon construction from a
coordinate loop, the zero-width buffer repair, and polygon containment
(of the second loop's polygon inside the first's). -/
structure ShEnv where
  polygonize : List WallSegment → List RawPoly
  polyOf : List Point → PolyProps
  buffer0 : List Point → PolyProps
  containsB : List Point → List Point → Bool

/-- Dropping the duplicated closing coordinate of a ring
(room_detector.py lines 272-274 and equivalents). -/
def ringCoords (l : List Point) : List Point :=
  if 1 < l.length ∧ l.head? = l.getLast? then l.dropLast else l

/-- find_faces_using_polygonize (lines 235-281): keep each polygonized
region that is valid with positive area, as its exterior loop without
the closing duplicate, provided at least 3 vertices remain.  The
append-loop of the source is rendered as filterMap. -/
def find_faces_using_polygonize (shenv : ShEnv) (segs : List WallSegment) :
    List (List Point) :=
  (shenv.polygonize segs).filterMap (fun rp =>
    if rp.is_valid ∧ 0 < rp.area then
      let coords := ringCoords rp.exterior
      if 3 ≤ coords.length then some coords else none
    else none)

/-- filter_cycles (lines 462-503): keep cycles of at least 3 vertices
whose polygon construction succeeds, is valid (no repair is attempted
here), and whose area and perimeter pass the thresholds. -/
def filter_cycles (shenv : ShEnv) (cycles : List (List Point))
    (min_area min_perimeter max_area : ℚ) : List (List Point) :=
  cycles.filter (fun c =>
    decide (3 ≤ c.length) && (shenv.polyOf c).ctor_ok &&
      (shenv.polyOf c).is_valid &&
      decide (min_area ≤ (shenv.polyOf c).area ∧
              (shenv.polyOf c).area ≤ max_area ∧
              min_perimeter ≤ (shenv.polyOf c).plen))

/-- polygon_to_bounding_box (lines 506-522): axis-aligned bounds of a
coordinate loop, (0,0,0,0) for the empty loop. -/
def polygon_to_bounding_box (cycle : List Point) : ℚ × ℚ × ℚ × ℚ :=
  match cycle with
  | [] => (0, 0, 0, 0)
  | p :: rest =>
    (rest.foldl (fun m q => min m q.1) p.1,
     rest.foldl (fun m q => min m q.2) p.2,
     rest.foldl (fun m q => max m q.1) p.1,
     rest.foldl (fun m q => max m q.2) p.2)

/-- normalize_bounding_box (lines 525-570): identity on boxes already in
the target range and on degenerate boxes; otherwise uniform scaling
about the box center followed by clamping into the target range. -/
def normalize_bounding_box (bbox : ℚ × ℚ × ℚ × ℚ) (target : ℚ × ℚ) :
    ℚ × ℚ × ℚ × ℚ :=
  match bbox, target with
  | (min_x, min_y, max_x, max_y), (lo, hi) =>
    if min_x ≥ lo ∧ max_x ≤ hi ∧ min_y ≥ lo ∧ max_y ≤ hi then
      (min_x, min_y, max_x, max_y)
    else
      let width := max_x - min_x
      let height := max_y - min_y
      if width = 0 ∨ height = 0 then (min_x, min_y, max_x, max_y)
      else
        let scale_x := if 0 < width then (hi - lo) / width else 1
        let scale_y := if 0 < height then (hi - lo) / height else 1
        let scale := min scale_x scale_y
        let new_width := width * scale
        let new_height := height * scale
        let center_x := (min_x + max_x) / 2
        let center_y := (min_y + max_y) / 2
        let new_min_x := max lo (center_x - new_width / 2)
        let new_min_y := max lo (center_y - new_height / 2)
        let new_max_x := min hi (new_min_x + new_width)
        let new_max_y := min hi (new_min_y + new_height)
        (new_min_x, new_min_y, new_max_x, new_max_y)

/-- The additive score of calculate_confidence_score on the valid-polygon
path, before clamping (lines 600-634). -/
def rawScore (shenv : ShEnv) (face : List Point) (used_polygonize : Bool) : ℚ :=
  let r := shenv.polyOf face
  let s1 : ℚ := 1 / 2
  let s2 := if used_polygonize then s1 + 1 / 5 else s1
  let area := r.area
  let perimeter := r.plen
  let s3 :=
    if 0 < area ∧ 0 < perimeter then
      let compactness := 4 * (314159 / 100000) * area / (perimeter * perimeter)
      if 1 / 2 < compactness then s2 + 3 / 20
      else if 3 / 10 < compactness then s2 + 1 / 10
      else if 1 / 10 < compactness then s2 + 1 / 20
      else s2
    else s2
  let s4 :=
    if 500 ≤ area ∧ area ≤ 500000 then s3 + 1 / 10
    else if area < 500 then s3 - 1 / 10
    else if 500000 < area then s3 - 1 / 20
    else s3
  let s5 :=
    if 3 ≤ face.length ∧ face.length ≤ 8 then s4 + 1 / 20
    else if 20 < face.length then s4 - 1 / 20
    else s4
  s5

/-- calculate_confidence_score (lines 573-640): 0.2 if polygon
construction raises, 0.3 if the polygon is invalid, otherwise the raw
additive score clamped to [0, 1].  The total_faces argument is unused by
the source as well. -/
def calculate_confidence_score (shenv : ShEnv) (face : List Point)
    (total_faces : Nat) (used_polygonize : Bool) : ℚ :=
  let r := shenv.polyOf face
  if r.ctor_ok = false then 1 / 5
  else if r.is_valid = false then 3 / 10
  else max 0 (min 1 (rawScore shenv face used_polygonize))

/-- Python's round(x, 2): scaled integer rounding.  (Python rounds
half-to-even; this renders half away from zero upward.  No property
proved here depends on the tie-breaking direction.) -/
def round2 (q : ℚ) : ℚ := ((round (100 * q) : ℤ) : ℚ) / 100

/-! ## Graph-traversal fallback (room_detector.py lines 284-409) -/

/-- Candidate-cycle accumulation state: the cycles collected so far and
the seen-set of their sorted-vertex keys (lines 305-306). -/
structure CandState where
  cycles : List (List Point)
  seen : List (List Point)
deriving DecidableEq, Repr

/-- Initial candidate state. -/
def candState0 : CandState := ⟨[], []⟩

/-- Lexicographic comparison on points, matching Python tuple sorting. -/
def ptLeB (p q : Point) : Bool :=
  decide (p.1 < q.1) || (decide (p.1 = q.1) && decide (p.2 ≤ q.2))

/-- Insertion into a lexicographically sorted point list. -/
def insSorted (p : Point) : List Point → List Point
  | [] => [p]
  | q :: t => if ptLeB p q then p :: q :: t else q :: insSorted p t

/-- sorted(cycle): the vertices in lexicographic order (the Python
canonical key for cycle deduplication, lines 320, 342, 354). -/
def sortPts (c : List Point) : List Point := c.foldr insSorted []

/-- Record a candidate cycle unless its sorted-vertex key was seen. -/
def pushCycle (st : CandState) (c : List Point) : CandState :=
  let key := sortPts c
  if key ∈ st.seen then st else ⟨st.cycles ++ [c], st.seen ++ [key]⟩

/-- Per-cycle processing of Strategy 1 (lines 310-323): skip cycles
shorter than 3, drop a duplicated closing vertex, recheck the length,
deduplicate by sorted vertex key. -/
def procRawCycle (st : CandState) (raw : List Point) : CandState :=
  if raw.length < 3 then st
  else
    let c := if 1 < raw.length ∧ raw.head? = raw.getLast? then raw.dropLast else raw
    if c.length < 3 then st else pushCycle st c

/-- Per-path processing of Strategy 2 (lines 336-345): from a simple
path v..u recovered after removing edge (u,v), rebuild the cycle
u::path, drop the duplicated endpoint and record it if at least 3
vertices remain. -/
def procPath (st : CandState) (start : Point) (path : List Point) : CandState :=
  if 2 ≤ path.length then
    let cyc := start :: path
    let c := if 1 < cyc.length ∧ cyc.head? = cyc.getLast? then cyc.dropLast else cyc
    if 3 ≤ c.length then pushCycle st c else st
  else st

/-- Environment of networkx enumeration results consumed by the
traversal fallback: simple cycles of the directed closure of a graph,
path existence, bounded simple-path enumeration, and the fundamental
cycle basis. -/
structure CycEnv where
  simpleCycles : Graph → List (List Point)
  hasPath : Graph → Point → Point → Bool
  simplePaths : Graph → Point → Point → Nat → List (List Point)
  cycleBasis : Graph → List (List Point)

/-- Strategy 1 (lines 308-323): process every enumerated simple cycle. -/
def strategy1Fold (raw : List (List Point)) (st : CandState) : CandState :=
  raw.foldl procRawCycle st

/-- Strategy 2 (lines 325-359): for every edge (u,v), remove it and
process every simple path from v back to u with cutoff 15.  (The inner
shortest-path fallback of the source only runs if the enumeration
raises, which the total model never does.) -/
def strategy2Fold (cenv : CycEnv) (g : Graph) (st : CandState) : CandState :=
  g.edges.foldl (fun st e =>
    let gT := removeEdge g e.1 e.2
    if cenv.hasPath gT e.2 e.1 then
      (cenv.simplePaths gT e.2 e.1 15).foldl (fun st p => procPath st e.1 p) st
    else st) st

/-- Conversion of candidate cycles to polygons (lines 366-375): failed
constructions are skipped, invalid polygons get a zero-width buffer
repair, and only (possibly repaired) valid polygons are kept. -/
def cyclePolys (shenv : ShEnv) (cycles : List (List Point)) :
    List (List Point × PolyProps) :=
  cycles.filterMap (fun c =>
    let r := shenv.polyOf c
    if r.ctor_ok then
      let r2 := if r.is_valid then r else shenv.buffer0 c
      if r2.ctor_ok && r2.is_valid then some (c, r2) else none
    else none)

/-- Minimal-face reduction (lines 377-399): a candidate is dropped when
some other candidate has area below 80% of its area and is contained in
it. -/
def minimalFaces (shenv : ShEnv) (ps : List (List Point × PolyProps)) :
    List (List Point) :=
  (ps.filter (fun cp =>
    !(ps.any (fun op =>
      (!(decide (op.1 = cp.1))) &&
        decide (op.2.area < cp.2.area * (4 / 5)) &&
        shenv.containsB cp.1 op.1)))).map (fun cp => cp.1)

/-- find_faces_in_planar_graph (lines 284-409): empty for graphs on
fewer than 3 nodes; otherwise strategies 1-3.  The except-branch falling
back to the cycle basis is unreachable in this total model. -/
def find_faces_in_planar_graph (cenv : CycEnv) (shenv : ShEnv) (g : Graph) :
    List (List Point) :=
  if g.nodes.length < 3 then []
  else
    let st1 := strategy1Fold (cenv.simpleCycles g) candState0
    let st2 := strategy2Fold cenv g st1
    minimalFaces shenv (cyclePolys shenv st2.cycles)

/-! ## Orchestrator (room_detector.py lines 643-690)

The source entry point takes a JSON path and first calls the parser;
this model starts from the parsed segment list. -/

/-- A detected room record. -/
structure Room where
  id : String
  bounding_box : ℚ × ℚ × ℚ × ℚ
  name_hint : String
  confidence : ℚ
deriving DecidableEq, Repr

/-- Zero-padded room identifier, as in the format room_{n:03d}. -/
def roomId (n : Nat) : String :=
  "room_" ++ (if n < 10 then "00" else if n < 100 then "0" else "") ++ toString n

/-- The face list handed to filter_cycles by detect_rooms (lines
659-669): the polygonize faces when nonempty, otherwise the graph
traversal result.  No further fallback is applied on this path. -/
def detect_rooms_faces (cenv : CycEnv) (shenv : ShEnv)
    (segs : List WallSegment) (tol : ℚ) : List (List Point) :=
  let fA := find_faces_using_polygonize shenv segs
  if fA.isEmpty then find_faces_in_planar_graph cenv shenv (build_wall_graph segs tol)
  else fA

/-- detect_rooms (lines 643-690) on an already-parsed segment list. -/
def detect_rooms (cenv : CycEnv) (shenv : ShEnv)
    (segs : List WallSegment) (tol : ℚ) : List Room :=
  let used := decide (0 < (find_faces_using_polygonize shenv segs).length)
  let valid := filter_cycles shenv (detect_rooms_faces cenv shenv segs tol) 100 40 900000
  valid.enum.map (fun ia =>
    ⟨roomId (ia.1 + 1),
     normalize_bounding_box (polygon_to_bounding_box ia.2) (0, 1000),
     "Room " ++ toString (ia.1 + 1),
     round2 (calculate_confidence_score shenv ia.2 valid.length used)⟩)

/-! ## Library soundness laws

These predicates record the documented contracts of the external
geometry and graph libraries; theorems that depend on what shapely or
networkx can possibly return take them as hypotheses, and concrete
environments are shown to satisfy them. -/

/-- Both points lie on a common input segment.  Every edge of a
polygonized ring is a piece of one of the (split) input lines. -/
def PairOnInput (segs : List WallSegment) (p q : Point) : Prop :=
  ∃ s ∈ segs, SegOn p s ∧ SegOn q s

/-- Contract of a polygon produced by shapely's polygonize on the given
segments: the exterior is a closed ring (first = last) each of whose
edges runs along some input segment, and the reported area is the
absolute shoelace area of the ring. -/
def RingSound (segs : List WallSegment) (rp : RawPoly) : Prop :=
  List.Chain' (PairOnInput segs) rp.exterior ∧
  rp.exterior.head? = rp.exterior.getLast? ∧
  rp.area = |signedArea2 (ringCoords rp.exterior)| / 2

/-- The polygonize field of an environment obeys the shapely contract on
the given input. -/
def PolygonizeSound (shenv : ShEnv) (segs : List WallSegment) : Prop :=
  ∀ rp ∈ shenv.polygonize segs, RingSound segs rp

/-- Contract of nx.simple_cycles on the directed closure: every returned
cycle has pairwise distinct vertices, cyclically consecutive ones being
adjacent in the underlying undirected graph. -/
def SimpleCyclesSound (cenv : CycEnv) : Prop :=
  ∀ g c, c ∈ cenv.simpleCycles g → c.Nodup ∧ List.Chain' (Adj g) (cycClose c)

/-- Contract of nx.all_simple_paths: every returned path has pairwise
distinct vertices, runs from the requested source to the requested
target, and consecutive vertices are adjacent. -/
def SimplePathsSound (cenv : CycEnv) : Prop :=
  ∀ g u v cut p, p ∈ cenv.simplePaths g u v cut →
    p.Nodup ∧ p.head? = some u ∧ p.getLast? = some v ∧ List.Chain' (Adj g) p

/-! ## Concrete inputs and environments used by witnesses and
counterexamples -/

/-- Trivial networkx environment: no cycles, no paths, empty basis
(what networkx returns on graphs without cycles). -/
def cenv0 : CycEnv :=
  ⟨fun _ => [], fun _ _ _ => false, fun _ _ _ _ => [], fun _ => []⟩

/-- Trivial shapely environment: polygonize finds nothing; polygon data
is irrelevant on inputs where no face reaches it. -/
def shenv0 : ShEnv :=
  ⟨fun _ => [], fun _ => ⟨true, true, 0, 0⟩, fun _ => ⟨true, true, 0, 0⟩,
   fun _ _ => false⟩

/-- The spec's example input: the axis-aligned unit-1000 square
0,0 -> 1000,0 -> 1000,1000 -> 0,1000 -> 0,0. -/
def sqSegs : List WallSegment :=
  [⟨(0, 0), (1000, 0), false⟩, ⟨(1000, 0), (1000, 1000), false⟩,
   ⟨(1000, 1000), (0, 1000), false⟩, ⟨(0, 1000), (0, 0), false⟩]

/-- The square's exterior ring as shapely reports it (closed). -/
def sqExterior : List Point := [(0, 0), (1000, 0), (1000, 1000), (0, 1000), (0, 0)]

/-- The square face after dropping the closing duplicate. -/
def sqFace : List Point := [(0, 0), (1000, 0), (1000, 1000), (0, 1000)]

/-- Shapely environment for the square input: polygonize finds exactly
the square region (valid, area 1000*1000 = 1000000, perimeter 4000). -/
def sqShEnv : ShEnv :=
  ⟨fun _ => [⟨true, 1000000, sqExterior⟩],
   fun c => if c = sqFace then ⟨true, true, 1000000, 4000⟩ else ⟨true, true, 0, 0⟩,
   fun _ => ⟨true, true, 0, 0⟩,
   fun _ _ => false⟩

/-- A 900-by-900 square input (area 810000, inside the filter bounds). -/
def segs900 : List WallSegment :=
  [⟨(0, 0), (900, 0), false⟩, ⟨(900, 0), (900, 900), false⟩,
   ⟨(900, 900), (0, 900), false⟩, ⟨(0, 900), (0, 0), false⟩]

/-- The 900-square face. -/
def face900 : List Point := [(0, 0), (900, 0), (900, 900), (0, 900)]

/-- Shapely environment for the 900-square: polygonize finds the square
(valid, area 810000, perimeter 3600). -/
def shenv900 : ShEnv :=
  ⟨fun _ => [⟨true, 810000, face900 ++ [(0, 0)]⟩],
   fun c => if c = face900 then ⟨true, true, 810000, 3600⟩ else ⟨true, true, 0, 0⟩,
   fun _ => ⟨true, true, 0, 0⟩,
   fun _ _ => false⟩

/-- A self-intersecting (bowtie) coordinate loop.  Shapely reports its
polygon invalid, and a zero-width buffer repairs it to a valid shape of
positive area. -/
def bowtie : List Point := [(0, 0), (100, 0), (0, 100), (100, 100)]

/-- Shapely environment for the bowtie: the raw polygon is invalid with
the (algebraically cancelled) area 0; buffer(0) yields a valid repaired
shape: two 50-by-100/2 triangles, area 5000, perimeter about 483. -/
def bowtieEnv : ShEnv :=
  ⟨fun _ => [],
   fun c => if c = bowtie then ⟨true, false, 0, 483⟩ else ⟨true, true, 0, 0⟩,
   fun c => if c = bowtie then ⟨true, true, 5000, 483⟩ else ⟨true, true, 0, 0⟩,
   fun _ _ => false⟩

/-- An open 3-segment polyline (no enclosed region at all): its wall
graph is a 4-node path, so polygonize and every cycle enumeration come
back empty. -/
def segs3 : List WallSegment :=
  [⟨(0, 0), (100, 0), false⟩, ⟨(100, 0), (100, 100), false⟩,
   ⟨(100, 100), (200, 100), false⟩]

/-- Two identical segments between the same endpoints. -/
def dupSegs : List WallSegment :=
  [⟨(0, 0), (10, 0), false⟩, ⟨(0, 0), (10, 0), false⟩]

/-- A single segment of length 5 (endpoints distance 5 apart). -/
def segsSnap : List WallSegment := [⟨(0, 0), (3, 4), false⟩]

/-- Twenty-one points spaced 10 apart (collinear placement is fine: only
graph adjacency matters to cycle enumeration, and spacing 10 rules out
snapping at tolerance 1). -/
def pts21 : List Point :=
  [(0, 0), (10, 0), (20, 0), (30, 0), (40, 0), (50, 0), (60, 0),
   (70, 0), (80, 0), (90, 0), (100, 0), (110, 0), (120, 0), (130, 0),
   (140, 0), (150, 0), (160, 0), (170, 0), (180, 0), (190, 0), (200, 0)]

/-- The 21 wall segments joining consecutive pts21 vertices in a closed
ring. -/
def segs21 : List WallSegment :=
  [⟨(0, 0), (10, 0), false⟩, ⟨(10, 0), (20, 0), false⟩,
   ⟨(20, 0), (30, 0), false⟩, ⟨(30, 0), (40, 0), false⟩,
   ⟨(40, 0), (50, 0), false⟩, ⟨(50, 0), (60, 0), false⟩,
   ⟨(60, 0), (70, 0), false⟩, ⟨(70, 0), (80, 0), false⟩,
   ⟨(80, 0), (90, 0), false⟩, ⟨(90, 0), (100, 0), false⟩,
   ⟨(100, 0), (110, 0), false⟩, ⟨(110, 0), (120, 0), false⟩,
   ⟨(120, 0), (130, 0), false⟩, ⟨(130, 0), (140, 0), false⟩,
   ⟨(140, 0), (150, 0), false⟩, ⟨(150, 0), (160, 0), false⟩,
   ⟨(160, 0), (170, 0), false⟩, ⟨(170, 0), (180, 0), false⟩,
   ⟨(180, 0), (190, 0), false⟩, ⟨(190, 0), (200, 0), false⟩,
   ⟨(200, 0), (0, 0), false⟩]

/-- The wall graph of segs21: all endpoints are at pairwise distance at
least 10, so snapping at tolerance 1 is the identity and the graph has
node list pts21 with one edge per consecutive pair plus the closing
edge; build_wall_graph segs21 1 equals this graph. -/
def graph21 : Graph :=
  ⟨pts21,
   [((0, 0), (10, 0)), ((10, 0), (20, 0)), ((20, 0), (30, 0)),
    ((30, 0), (40, 0)), ((40, 0), (50, 0)), ((50, 0), (60, 0)),
    ((60, 0), (70, 0)), ((70, 0), (80, 0)), ((80, 0), (90, 0)),
    ((90, 0), (100, 0)), ((100, 0), (110, 0)), ((110, 0), (120, 0)),
    ((120, 0), (130, 0)), ((130, 0), (140, 0)), ((140, 0), (150, 0)),
    ((150, 0), (160, 0)), ((160, 0), (170, 0)), ((170, 0), (180, 0)),
    ((180, 0), (190, 0)), ((190, 0), (200, 0)), ((200, 0), (0, 0))]⟩

/-- The wall graph of segs3: a 4-node path (all endpoints at pairwise
distance at least 100, so snapping at tolerance 1 is the identity);
build_wall_graph segs3 1 equals this graph, and it has no simple cycle. -/
def graph3 : Graph :=
  ⟨[(0, 0), (100, 0), (100, 100), (200, 100)],
   [((0, 0), (100, 0)), ((100, 0), (100, 100)), ((100, 100), (200, 100))]⟩

/-! ## Helper lemmas -/

theorem edgeMemB_iff (es : List (Point × Point)) (u v : Point) :
    edgeMemB es u v = true ↔
      ∃ e ∈ es, (e.1 = u ∧ e.2 = v) ∨ (e.1 = v ∧ e.2 = u) := by
  simp [edgeMemB, List.any_eq_true, Bool.or_eq_true, Bool.and_eq_true,
    decide_eq_true_eq]

theorem edgeMemB_of_unord {es : List (Point × Point)} {a b u v : Point}
    (h : edgeMemB es a b = true)
    (hu : (a = u ∧ b = v) ∨ (a = v ∧ b = u)) : edgeMemB es u v = true := by
  rcases (edgeMemB_iff es a b).1 h with ⟨e, he, hcase⟩
  refine (edgeMemB_iff es u v).2 ⟨e, he, ?_⟩
  rcases hu with ⟨rfl, rfl⟩ | ⟨rfl, rfl⟩
  · exact hcase
  · tauto

theorem addNode_edges (g : Graph) (p : Point) : (addNode g p).edges = g.edges := by
  unfold addNode; split <;> rfl

theorem foldl_build_edges (segs : List WallSegment) (tol : ℚ) :
    ∀ (l : List WallSegment) (g : Graph),
      (List.foldl (fun g s =>
        let u := snapPoint segs tol s.start
        let v := snapPoint segs tol s.stop
        addEdge (addNode (addNode g u) v) u v) g l).edges =
      List.foldl (fun es e => if edgeMemB es e.1 e.2 then es else es ++ [e])
        g.edges
        (l.map (fun s => (snapPoint segs tol s.start, snapPoint segs tol s.stop)))
  | [], g => rfl
  | s :: t, g => by
    rw [List.foldl_cons, foldl_build_edges segs tol t, List.map_cons,
      List.foldl_cons]
    congr 1
    simp only [addEdge, addNode_edges, apply_ite Graph.edges]

theorem undirDedup_foldl_mem (u v : Point) :
    ∀ (l : List (Point × Point)) (acc : List (Point × Point)),
      edgeMemB (List.foldl
          (fun es e => if edgeMemB es e.1 e.2 then es else es ++ [e]) acc l) u v
        = true ↔
      (edgeMemB acc u v = true ∨
        ∃ e ∈ l, (e.1 = u ∧ e.2 = v) ∨ (e.1 = v ∧ e.2 = u))
  | [], acc => by simp
  | e :: t, acc => by
    rw [List.foldl_cons, undirDedup_foldl_mem u v t]
    by_cases hmem : edgeMemB acc e.1 e.2 = true
    · rw [if_pos hmem]
      constructor
      · rintro (h | h)
        · exact Or.inl h
        · exact Or.inr ⟨_, List.mem_cons_of_mem _ h.choose_spec.1, h.choose_spec.2⟩
      · rintro (h | ⟨e', he', hcase⟩)
        · exact Or.inl h
        · rcases List.mem_cons.1 he' with rfl | he'
          · exact Or.inl (edgeMemB_of_unord hmem hcase)
          · exact Or.inr ⟨e', he', hcase⟩
    · rw [if_neg hmem]
      have happ : edgeMemB (acc ++ [e]) u v = true ↔
          edgeMemB acc u v = true ∨ (e.1 = u ∧ e.2 = v) ∨ (e.1 = v ∧ e.2 = u) := by
        rw [edgeMemB_iff, edgeMemB_iff]
        constructor
        · rintro ⟨e', he', hc⟩
          rcases List.mem_append.1 he' with h | h
          · exact Or.inl ⟨e', h, hc⟩
          · rw [List.mem_singleton.1 h] at hc
            exact Or.inr hc
        · rintro (⟨e', he', hc⟩ | hc)
          · exact ⟨e', List.mem_append_left _ he', hc⟩
          · exact ⟨e, List.mem_append_right _ (List.mem_singleton_self e), hc⟩
      rw [happ]
      simp only [List.mem_cons]
      constructor
      · rintro ((h | h) | ⟨e', he', hc⟩)
        · exact Or.inl h
        · exact Or.inr ⟨e, Or.inl rfl, h⟩
        · exact Or.inr ⟨e', Or.inr he', hc⟩
      · rintro (h | ⟨e', rfl | he', hc⟩)
        · exact Or.inl (Or.inl h)
        · exact Or.inl (Or.inr hc)
        · exact Or.inr ⟨e', he', hc⟩

theorem alookup_some_mem :
    ∀ (m : List (Point × Point)) (p v : Point), alookup m p = some v → (p, v) ∈ m
  | [], p, v => by simp [alookup]
  | (k, w) :: t, p, v => by
    simp only [alookup]
    split
    · next hk =>
      intro h
      rw [hk, Option.some_inj.1 h]
      exact List.mem_cons_self _ _
    · intro h
      exact List.mem_cons_of_mem _ (alookup_some_mem t p v h)

theorem snapPoint_id_of_values (segs : List WallSegment) (tol : ℚ)
    (h : ∀ kv ∈ snap_endpoints segs tol, kv.2 = kv.1) (p : Point) :
    snapPoint segs tol p = p := by
  unfold snapPoint
  cases halk : alookup (snap_endpoints segs tol) p with
  | none => rfl
  | some v =>
    have hv := h _ (alookup_some_mem _ _ _ halk)
    simpa using hv

theorem build_wall_graph_snap_id (segs : List WallSegment) (tol : ℚ)
    (h : ∀ p, snapPoint segs tol p = p) :
    build_wall_graph segs tol =
      segs.foldl (fun g s => addEdge (addNode (addNode g s.start) s.stop)
        s.start s.stop) ⟨[], []⟩ := by
  unfold build_wall_graph
  refine List.foldl_ext _ _ _ ?_
  intro g s _
  simp only [h]

theorem snap_endpoints_dup :
    snap_endpoints dupSegs 1 = [((0, 0), (0, 0)), ((10, 0), (10, 0))] := by
  norm_num [snap_endpoints, endpointsOf, dupSegs, insertIfNew, snapStep,
    sqrtLeB, dsq, List.find?, Prod.ext_iff]

theorem snapPoint_dup_id (p : Point) : snapPoint dupSegs 1 p = p :=
  snapPoint_id_of_values _ _ (by rw [snap_endpoints_dup]; decide) p

theorem build_dup :
    build_wall_graph dupSegs 1 = ⟨[(0, 0), (10, 0)], [((0, 0), (10, 0))]⟩ := by
  rw [build_wall_graph_snap_id dupSegs 1 snapPoint_dup_id]
  decide

theorem snap_endpoints_segs3 :
    snap_endpoints segs3 1 =
      [((0, 0), (0, 0)), ((100, 0), (100, 0)), ((100, 100), (100, 100)),
       ((200, 100), (200, 100))] := by
  norm_num [snap_endpoints, endpointsOf, segs3, insertIfNew, snapStep,
    sqrtLeB, dsq, List.find?, Prod.ext_iff]

theorem snapPoint_segs3_id (p : Point) : snapPoint segs3 1 p = p :=
  snapPoint_id_of_values _ _ (by rw [snap_endpoints_segs3]; decide) p

theorem build_segs3 : build_wall_graph segs3 1 = graph3 := by
  rw [build_wall_graph_snap_id segs3 1 snapPoint_segs3_id]
  decide

theorem snap_endpoints_segs21 :
    snap_endpoints segs21 1 =
      [((0, 0), (0, 0)), ((10, 0), (10, 0)), ((20, 0), (20, 0)),
       ((30, 0), (30, 0)), ((40, 0), (40, 0)), ((50, 0), (50, 0)),
       ((60, 0), (60, 0)), ((70, 0), (70, 0)), ((80, 0), (80, 0)),
       ((90, 0), (90, 0)), ((100, 0), (100, 0)), ((110, 0), (110, 0)),
       ((120, 0), (120, 0)), ((130, 0), (130, 0)), ((140, 0), (140, 0)),
       ((150, 0), (150, 0)), ((160, 0), (160, 0)), ((170, 0), (170, 0)),
       ((180, 0), (180, 0)), ((190, 0), (190, 0)), ((200, 0), (200, 0))] := by
  norm_num [snap_endpoints, endpointsOf, segs21, insertIfNew, snapStep,
    sqrtLeB, dsq, List.find?, Prod.ext_iff]

theorem snapPoint_segs21_id (p : Point) : snapPoint segs21 1 p = p :=
  snapPoint_id_of_values _ _ (by rw [snap_endpoints_segs21]; decide) p

set_option maxRecDepth 8000 in
theorem build_segs21 : build_wall_graph segs21 1 = graph21 := by
  rw [build_wall_graph_snap_id segs21 1 snapPoint_segs21_id]
  decide

theorem pushCycle_mem {st : CandState} {c0 c : List Point}
    (hc : c ∈ (pushCycle st c0).cycles) : c ∈ st.cycles ∨ c = c0 := by
  simp only [pushCycle] at hc
  split at hc
  · exact Or.inl hc
  · rcases List.mem_append.1 hc with h | h
    · exact Or.inl h
    · exact Or.inr (List.mem_singleton.1 h)

theorem procRawCycle_mem {st : CandState} {r c : List Point}
    (hc : c ∈ (procRawCycle st r).cycles) : c ∈ st.cycles ∨ 3 ≤ c.length := by
  unfold procRawCycle at hc
  by_cases h1 : r.length < 3
  · rw [if_pos h1] at hc
    exact Or.inl hc
  · rw [if_neg h1] at hc
    simp only [] at hc
    by_cases h2 :
        (if 1 < r.length ∧ r.head? = r.getLast? then r.dropLast else r).length < 3
    · rw [if_pos h2] at hc
      exact Or.inl hc
    · rw [if_neg h2] at hc
      rcases pushCycle_mem hc with h | rfl
      · exact Or.inl h
      · exact Or.inr (by omega)

theorem segOn_start (s : WallSegment) : SegOn s.start s :=
  ⟨0, le_refl 0, zero_le_one, by simp⟩

theorem segOn_stop (s : WallSegment) : SegOn s.stop s :=
  ⟨1, zero_le_one, le_refl 1, by simp⟩

theorem signedArea2_quad (p0 p1 p2 p3 : Point) :
    signedArea2 [p0, p1, p2, p3] =
      cross p0 p1 + cross p1 p2 + cross p2 p3 + cross p3 p0 := by
  show (∑ i : Fin 4, cross ([p0, p1, p2, p3].get i)
      ([p0, p1, p2, p3].get (cnext i))) = _
  rw [Fin.sum_univ_four]
  have n0 : cnext (0 : Fin 4) = 1 := by decide
  have n1 : cnext (1 : Fin 4) = 2 := by decide
  have n2 : cnext (2 : Fin 4) = 3 := by decide
  have n3 : cnext (3 : Fin 4) = 0 := by decide
  rw [n0, n1, n2, n3]
  rfl

theorem alookup_append_some {m1 : List (Point × Point)} {p v : Point}
    (h : alookup m1 p = some v) (m2 : List (Point × Point)) :
    alookup (m1 ++ m2) p = some v := by
  induction m1 with
  | nil => simp [alookup] at h
  | cons kv t ih =>
    obtain ⟨k, w⟩ := kv
    simp only [alookup, List.cons_append] at h ⊢
    split at h
    · next hk => rw [if_pos hk]; exact h
    · next hk => rw [if_neg hk]; exact ih h

theorem alookup_append_none {m1 : List (Point × Point)} {p : Point}
    (h : alookup m1 p = none) (m2 : List (Point × Point)) :
    alookup (m1 ++ m2) p = alookup m2 p := by
  induction m1 with
  | nil => rfl
  | cons kv t ih =>
    obtain ⟨k, w⟩ := kv
    simp only [alookup, List.cons_append] at h ⊢
    split at h
    · exact absurd h (by simp)
    · next hk => rw [if_neg hk]; exact ih h

theorem alookup_none_of_not_mem_keys {m : List (Point × Point)} {p : Point}
    (h : p ∉ m.map Prod.fst) : alookup m p = none := by
  induction m with
  | nil => rfl
  | cons kv t ih =>
    obtain ⟨k, w⟩ := kv
    simp only [List.map_cons, List.mem_cons] at h
    push_neg at h
    simp only [alookup]
    rw [if_neg (fun hk => h.1 hk.symm)]
    exact ih h.2

theorem alookup_isSome_of_mem_keys {m : List (Point × Point)} {p : Point}
    (h : p ∈ m.map Prod.fst) : ∃ v, alookup m p = some v := by
  induction m with
  | nil => simp at h
  | cons kv t ih =>
    obtain ⟨k, w⟩ := kv
    simp only [List.map_cons, List.mem_cons] at h
    simp only [alookup]
    by_cases hk : k = p
    · exact ⟨w, if_pos hk⟩
    · rw [if_neg hk]
      exact ih (h.resolve_left (fun hp => hk hp.symm))

/-- Invariant of the snapping fold: canonical points look themselves up,
and every association targets a canonical point that is either the key
itself or within tolerance of it. -/
def SnapInv (tol : ℚ) (st : List Point × List (Point × Point)) : Prop :=
  (∀ c ∈ st.1, alookup st.2 c = some c) ∧
  (∀ kv ∈ st.2, kv.2 ∈ st.1 ∧ (kv.2 = kv.1 ∨ sqrtLeB (dsq kv.1 kv.2) tol = true))

theorem snapStep_invariant (tol : ℚ) (st : List Point × List (Point × Point))
    (p : Point) (hinv : SnapInv tol st) (hfresh : p ∉ st.2.map Prod.fst) :
    SnapInv tol (snapStep tol st p) ∧
    (snapStep tol st p).2.map Prod.fst = st.2.map Prod.fst ++ [p] := by
  unfold snapStep
  cases hf : st.1.find? (fun c => sqrtLeB (dsq p c) tol) with
  | some c =>
    refine ⟨⟨?_, ?_⟩, by simp⟩
    · intro c' hc'
      exact alookup_append_some (hinv.1 c' hc') _
    · intro kv hkv
      rcases List.mem_append.1 hkv with h | h
      · exact hinv.2 kv h
      · rw [List.mem_singleton.1 h]
        exact ⟨List.mem_of_find?_eq_some hf,
          Or.inr (by simpa using List.find?_some hf)⟩
  | none =>
    refine ⟨⟨?_, ?_⟩, by simp⟩
    · intro c' hc'
      rcases List.mem_append.1 hc' with h | h
      · exact alookup_append_some (hinv.1 c' h) _
      · rw [List.mem_singleton.1 h]
        rw [alookup_append_none (alookup_none_of_not_mem_keys hfresh)]
        simp [alookup]
    · intro kv hkv
      rcases List.mem_append.1 hkv with h | h
      · exact ⟨List.mem_append_left _ (hinv.2 kv h).1, (hinv.2 kv h).2⟩
      · rw [List.mem_singleton.1 h]
        exact ⟨List.mem_append_right _ (List.mem_singleton_self p), Or.inl rfl⟩

theorem snapFold_invariant (tol : ℚ) :
    ∀ (ps : List Point) (st : List Point × List (Point × Point)),
      SnapInv tol st → (∀ p ∈ ps, p ∉ st.2.map Prod.fst) → ps.Nodup →
      SnapInv tol (ps.foldl (snapStep tol) st) ∧
      (ps.foldl (snapStep tol) st).2.map Prod.fst = st.2.map Prod.fst ++ ps
  | [], st => fun hinv _ _ => ⟨hinv, by simp⟩
  | p :: t, st => by
    intro hinv hfresh hnd
    obtain ⟨hinv', hkeys'⟩ :=
      snapStep_invariant tol st p hinv (hfresh p (List.mem_cons_self _ _))
    have hfresh' : ∀ q ∈ t, q ∉ (snapStep tol st p).2.map Prod.fst := by
      intro q hq
      rw [hkeys']
      intro hmem
      rcases List.mem_append.1 hmem with h | h
      · exact hfresh q (List.mem_cons_of_mem _ hq) h
      · exact (List.nodup_cons.1 hnd).1 (by rwa [List.mem_singleton.1 h] at hq)
    obtain ⟨hinv2, hkeys2⟩ := snapFold_invariant tol t (snapStep tol st p)
      hinv' hfresh' (List.nodup_cons.1 hnd).2
    refine ⟨hinv2, ?_⟩
    rw [List.foldl_cons, hkeys2, hkeys']
    simp

theorem insertIfNew_nodup (acc : List Point) (p : Point) (h : acc.Nodup) :
    (insertIfNew acc p).Nodup := by
  unfold insertIfNew
  split
  · exact h
  · next hmem => simp [List.nodup_append, h, hmem]

theorem endpointsOf_nodup (segs : List WallSegment) : (endpointsOf segs).Nodup := by
  unfold endpointsOf
  suffices hgen : ∀ (l : List WallSegment) (acc : List Point), acc.Nodup →
      (l.foldl (fun acc s => insertIfNew (insertIfNew acc s.start) s.stop) acc).Nodup by
    exact hgen segs [] List.nodup_nil
  intro l
  induction l with
  | nil => exact fun acc h => h
  | cons s t ih =>
    intro acc h
    exact ih _ (insertIfNew_nodup _ _ (insertIfNew_nodup _ _ h))

theorem snap_endpoints_invariant (segs : List WallSegment) (tol : ℚ) :
    SnapInv tol ((endpointsOf segs).foldl (snapStep tol) ([], [])) ∧
    (snap_endpoints segs tol).map Prod.fst = endpointsOf segs := by
  obtain ⟨h1, h2⟩ := snapFold_invariant tol (endpointsOf segs) ([], [])
    ⟨fun c hc => absurd hc (List.not_mem_nil c), fun kv hkv => absurd hkv (List.not_mem_nil kv)⟩
    (fun p _ => by simp) (endpointsOf_nodup segs)
  exact ⟨h1, by simpa [snap_endpoints] using h2⟩

/-! ## Geometry: a closed ring whose edges all run along at most two
straight segments encloses zero signed area. -/

theorem cross_expand (a b q : Point) :
    cross a b = cross (a - q) (b - q) + cross a q - cross b q := by
  simp only [cross, Prod.fst_sub, Prod.snd_sub]
  ring

theorem cross_smul_smul (x y : ℚ) (d : Point) : cross (x • d) (y • d) = 0 := by
  simp only [cross, Prod.smul_fst, Prod.smul_snd, smul_eq_mul]
  ring

theorem segOn_cross_zero {p p' q : Point} {s : WallSegment}
    (hp : SegOn p s) (hp' : SegOn p' s) (hq : SegOn q s) :
    cross (p - q) (p' - q) = 0 := by
  obtain ⟨t1, _, _, rfl⟩ := hp
  obtain ⟨t2, _, _, rfl⟩ := hp'
  obtain ⟨t3, _, _, rfl⟩ := hq
  have h1 : s.start + t1 • (s.stop - s.start) - (s.start + t3 • (s.stop - s.start))
      = (t1 - t3) • (s.stop - s.start) := by
    rw [add_sub_add_left_eq_sub, ← sub_smul]
  have h2 : s.start + t2 • (s.stop - s.start) - (s.start + t3 • (s.stop - s.start))
      = (t2 - t3) • (s.stop - s.start) := by
    rw [add_sub_add_left_eq_sub, ← sub_smul]
  rw [h1, h2, cross_smul_smul]

theorem sum_cnext_comp {n : ℕ} (f : Fin n → ℚ) :
    ∑ i, f (cnext i) = ∑ i, f i := by
  cases n with
  | zero => simp
  | succ m =>
    have h : ∀ i : Fin (m + 1), cnext i = i + 1 := by
      intro i
      apply Fin.ext
      rw [Fin.val_add, Fin.val_one']
      show (i.1 + 1) % (m + 1) = (i.1 + 1 % (m + 1)) % (m + 1)
      conv_lhs => rw [Nat.add_mod]
      conv_rhs => rw [Nat.add_mod, Nat.mod_mod_of_dvd _ (dvd_refl _)]
    calc ∑ i, f (cnext i) = ∑ i, f (finRotate (m + 1) i) := by
          refine Finset.sum_congr rfl (fun i _ => ?_)
          rw [h i, finRotate_succ_apply]
      _ = ∑ i, f i := Equiv.sum_comp (finRotate (m + 1)) f

theorem sum_cyc_zero {n : ℕ} (v : Fin n → Point) (q : Point)
    (h : ∀ i, cross (v i - q) (v (cnext i) - q) = 0) :
    (∑ i, cross (v i) (v (cnext i))) = 0 := by
  have hterm : ∀ i, cross (v i) (v (cnext i)) =
      cross (v i) q - cross (v (cnext i)) q := by
    intro i
    rw [cross_expand (v i) (v (cnext i)) q, h i]
    ring
  calc (∑ i, cross (v i) (v (cnext i)))
      = ∑ i, (cross (v i) q - cross (v (cnext i)) q) :=
        Finset.sum_congr rfl (fun i _ => hterm i)
    _ = (∑ i, cross (v i) q) - ∑ i, cross (v (cnext i)) q :=
        Finset.sum_sub_distrib
    _ = 0 := by rw [sum_cnext_comp (fun j => cross (v j) q)]; ring

theorem propagate_onSeg {n : ℕ} (v : Fin (n + 1) → Point) (sA sB : WallSegment)
    (H : ∀ i, (SegOn (v i) sA ∧ SegOn (v (cnext i)) sA) ∨
              (SegOn (v i) sB ∧ SegOn (v (cnext i)) sB))
    (hnb : ∀ i, ¬(SegOn (v i) sA ∧ SegOn (v i) sB))
    (h0 : SegOn (v ⟨0, Nat.succ_pos n⟩) sA) :
    ∀ i, SegOn (v i) sA := by
  have hstep : ∀ k (hk : k < n + 1), SegOn (v ⟨k, hk⟩) sA := by
    intro k
    induction k with
    | zero => intro hk; exact h0
    | succ k ih =>
      intro hk
      have hk' : k < n + 1 := Nat.lt_of_succ_lt hk
      have hprev := ih hk'
      have hnext : cnext (⟨k, hk'⟩ : Fin (n + 1)) = ⟨k + 1, hk⟩ :=
        Fin.ext (Nat.mod_eq_of_lt hk)
      rcases H ⟨k, hk'⟩ with ⟨h1, h2⟩ | ⟨h1, h2⟩
      · rwa [hnext] at h2
      · exact absurd ⟨hprev, h1⟩ (hnb ⟨k, hk'⟩)
  intro i
  have hi : i = ⟨i.1, i.2⟩ := Fin.ext rfl
  rw [hi]
  exact hstep i.1 i.2

theorem sum_zero_of_pairs_on_two (sA sB : WallSegment) {n : ℕ}
    (v : Fin n → Point)
    (H : ∀ i, (SegOn (v i) sA ∧ SegOn (v (cnext i)) sA) ∨
              (SegOn (v i) sB ∧ SegOn (v (cnext i)) sB)) :
    (∑ i, cross (v i) (v (cnext i))) = 0 := by
  cases n with
  | zero => simp
  | succ m =>
    by_cases hboth : ∃ i, SegOn (v i) sA ∧ SegOn (v i) sB
    · obtain ⟨i0, hA0, hB0⟩ := hboth
      refine sum_cyc_zero v (v i0) (fun i => ?_)
      rcases H i with ⟨h1, h2⟩ | ⟨h1, h2⟩
      · exact segOn_cross_zero h1 h2 hA0
      · exact segOn_cross_zero h1 h2 hB0
    · push_neg at hboth
      by_cases h0 : SegOn (v ⟨0, Nat.succ_pos m⟩) sA
      · have hall := propagate_onSeg v sA sB H
          (fun i h => hboth i h.1 h.2) h0
        refine sum_cyc_zero v sA.start (fun i => ?_)
        exact segOn_cross_zero (hall i) (hall (cnext i)) (segOn_start sA)
      · have h0B : SegOn (v ⟨0, Nat.succ_pos m⟩) sB := by
          rcases H ⟨0, Nat.succ_pos m⟩ with ⟨h1, _⟩ | ⟨h1, _⟩
          · exact absurd h1 h0
          · exact h1
        have hall := propagate_onSeg v sB sA (fun i => (H i).symm)
          (fun i h => hboth i h.2 h.1) h0B
        refine sum_cyc_zero v sB.start (fun i => ?_)
        exact segOn_cross_zero (hall i) (hall (cnext i)) (segOn_start sB)

theorem chain'_cyc_get {R : Point → Point → Prop} (c : List Point) (hc : c ≠ [])
    (h : List.Chain' R (c ++ c.take 1)) :
    ∀ i : Fin c.length, R (c.get i) (c.get (cnext i)) := by
  intro i
  have hpos : 0 < c.length := List.length_pos.2 hc
  have hlen1 : (c.take 1).length = 1 := by
    rw [List.length_take]
    omega
  have hlen : (c ++ c.take 1).length = c.length + 1 := by
    rw [List.length_append, hlen1]
  rw [List.chain'_iff_get] at h
  have hi : i.1 < (c ++ c.take 1).length - 1 := by omega
  have h2 := h i.1 hi
  have e1 : (c ++ c.take 1).get ⟨i.1, by omega⟩ = c.get i := by
    rw [List.get_eq_getElem, List.get_eq_getElem]
    exact List.getElem_append_left i.2
  rw [show ((⟨i.1, by omega⟩ : Fin (c ++ c.take 1).length)) =
      ⟨i.1, by omega⟩ from rfl] at h2
  by_cases hlt : i.1 + 1 < c.length
  · have e2 : (c ++ c.take 1).get ⟨i.1 + 1, by omega⟩ = c.get (cnext i) := by
      have hcn : cnext i = ⟨i.1 + 1, hlt⟩ := Fin.ext (Nat.mod_eq_of_lt hlt)
      rw [hcn, List.get_eq_getElem, List.get_eq_getElem]
      exact List.getElem_append_left hlt
    rw [← e1, ← e2]
    exact h2
  · have heq : i.1 + 1 = c.length := by omega
    have e2 : (c ++ c.take 1).get ⟨i.1 + 1, by omega⟩ = c.get (cnext i) := by
      have hcn : cnext i = ⟨0, hpos⟩ := by
        apply Fin.ext
        show (i.1 + 1) % c.length = 0
        rw [heq, Nat.mod_self]
      have hle : c.length ≤ i.1 + 1 := by omega
      rw [hcn, List.get_eq_getElem, List.get_eq_getElem]
      rw [List.getElem_append_right hle]
      have e4 : i.1 + 1 - c.length = 0 := by omega
      simp only [e4, List.getElem_take]
    rw [← e1, ← e2]
    exact h2

/-! ## Pigeonhole: a simple cycle on at least 3 nodes needs at least 3
distinct edges, so a graph with at most 2 edges admits none. -/

theorem distinct_three_le_length {α : Type} [DecidableEq α] {e1 e2 e3 : α}
    {l : List α} (h1 : e1 ∈ l) (h2 : e2 ∈ l) (h3 : e3 ∈ l)
    (h12 : e1 ≠ e2) (h13 : e1 ≠ e3) (h23 : e2 ≠ e3) : 3 ≤ l.length := by
  have hsub : ({e1, e2, e3} : Finset α) ⊆ l.toFinset := by
    intro x hx
    simp only [Finset.mem_insert, Finset.mem_singleton] at hx
    rcases hx with rfl | rfl | rfl <;> exact List.mem_toFinset.2 (by assumption)
  have hcard : ({e1, e2, e3} : Finset α).card = 3 := by
    rw [Finset.card_insert_of_not_mem (by simp [h12, h13]),
      Finset.card_insert_of_not_mem (by simp [h23]), Finset.card_singleton]
  calc 3 = ({e1, e2, e3} : Finset α).card := hcard.symm
    _ ≤ l.toFinset.card := Finset.card_le_card hsub
    _ ≤ l.length := l.toFinset_card_le

theorem edges_of_adj {g : Graph} {u v : Point} (h : Adj g u v) :
    ∃ e ∈ g.edges, (e.1 = u ∧ e.2 = v) ∨ (e.1 = v ∧ e.2 = u) :=
  (edgeMemB_iff _ _ _).1 h

theorem unord_eq_cases {x : Point × Point} {u v u' v' : Point}
    (h : (x.1 = u ∧ x.2 = v) ∨ (x.1 = v ∧ x.2 = u))
    (h' : (x.1 = u' ∧ x.2 = v') ∨ (x.1 = v' ∧ x.2 = u')) :
    (u = u' ∧ v = v') ∨ (u = v' ∧ v = u') := by
  rcases h with ⟨ha, hb⟩ | ⟨ha, hb⟩ <;> rcases h' with ⟨hc, hd⟩ | ⟨hc, hd⟩
  · exact Or.inl ⟨ha.symm.trans hc, hb.symm.trans hd⟩
  · exact Or.inr ⟨ha.symm.trans hc, hb.symm.trans hd⟩
  · exact Or.inr ⟨hb.symm.trans hd, ha.symm.trans hc⟩
  · exact Or.inl ⟨hb.symm.trans hd, ha.symm.trans hc⟩

theorem three_edges_of_cycle (g : Graph) (c : List Point) (hnd : c.Nodup)
    (h3 : 3 ≤ c.length) (hch : List.Chain' (Adj g) (c ++ c.take 1)) :
    3 ≤ g.edges.length := by
  match c, hnd, h3, hch with
  | a :: b :: d :: t, hnd, _, hch =>
    have hch' : List.Chain' (Adj g) (a :: b :: d :: (t ++ [a])) := by
      simpa using hch
    rw [List.chain'_cons] at hch'
    obtain ⟨hab, hch2⟩ := hch'
    rw [List.chain'_cons] at hch2
    obtain ⟨hbd, hch3⟩ := hch2
    simp only [List.nodup_cons, List.mem_cons, not_or] at hnd
    obtain ⟨⟨hnab, hnad, hnat⟩, ⟨hnbd, hnbt⟩, hndt, hnt⟩ := hnd
    obtain ⟨E1, hE1, hu1⟩ := edges_of_adj hab
    obtain ⟨E2, hE2, hu2⟩ := edges_of_adj hbd
    have hE12 : E1 ≠ E2 := by
      intro hEq
      rw [hEq] at hu1
      rcases unord_eq_cases hu1 hu2 with ⟨hx, _⟩ | ⟨hx, _⟩
      · exact hnab hx
      · exact hnad hx
    rcases t with _ | ⟨e, t'⟩
    · have hda : Adj g d a := by
        simp only [List.nil_append] at hch3
        rw [List.chain'_cons] at hch3
        exact hch3.1
      obtain ⟨E3, hE3, hu3⟩ := edges_of_adj hda
      refine distinct_three_le_length hE1 hE2 hE3 hE12 ?_ ?_
      · intro hEq
        rw [hEq] at hu1
        rcases unord_eq_cases hu1 hu3 with ⟨hx, _⟩ | ⟨_, hx⟩
        · exact hnad hx
        · exact hnbd hx
      · intro hEq
        rw [hEq] at hu2
        rcases unord_eq_cases hu2 hu3 with ⟨hx, _⟩ | ⟨hx, _⟩
        · exact hnbd hx
        · exact hnab hx.symm
    · have hde : Adj g d e := by
        simp only [List.cons_append] at hch3
        rw [List.chain'_cons] at hch3
        exact hch3.1
      obtain ⟨E3, hE3, hu3⟩ := edges_of_adj hde
      have hnbe : b ≠ e := fun h => hnbt (h ▸ List.mem_cons_self e t')
      have hnde : d ≠ e := fun h => hndt (h ▸ List.mem_cons_self e t')
      have hnae : a ≠ e := fun h => hnat (h ▸ List.mem_cons_self e t')
      refine distinct_three_le_length hE1 hE2 hE3 hE12 ?_ ?_
      · intro hEq
        rw [hEq] at hu1
        rcases unord_eq_cases hu1 hu3 with ⟨hx, _⟩ | ⟨hx, _⟩
        · exact hnad hx
        · exact hnae hx
      · intro hEq
        rw [hEq] at hu2
        rcases unord_eq_cases hu2 hu3 with ⟨hx, _⟩ | ⟨hx, _⟩
        · exact hnbd hx
        · exact hnbe hx
  | [a], hnd, h3, _ => simp at h3
  | [a, b], hnd, h3, _ => simp at h3
  | [], hnd, h3, _ => simp at h3

theorem adj_removeEdge {g : Graph} {a b u v : Point}
    (h : Adj (removeEdge g a b) u v) : Adj g u v := by
  rcases (edgeMemB_iff _ _ _).1 h with ⟨e, he, hc⟩
  exact (edgeMemB_iff _ _ _).2 ⟨e, List.mem_of_mem_filter he, hc⟩

/-! ## With at most two edges, the traversal strategies collect no
candidate cycles. -/

theorem strategy1Fold_id {g : Graph} (hedges : g.edges.length ≤ 2)
    (raws : List (List Point))
    (hsound : ∀ c ∈ raws, c.Nodup ∧ List.Chain' (Adj g) (cycClose c)) :
    ∀ st, strategy1Fold raws st = st := by
  induction raws with
  | nil => intro st; rfl
  | cons r t ih =>
    intro st
    obtain ⟨hnd, hch⟩ := hsound r (List.mem_cons_self _ _)
    have hstep : procRawCycle st r = st := by
      unfold procRawCycle
      by_cases h1 : r.length < 3
      · rw [if_pos h1]
      · exact absurd (three_edges_of_cycle g r hnd (by omega) hch) (by omega)
    show List.foldl procRawCycle st (r :: t) = st
    rw [List.foldl_cons, hstep]
    exact ih (fun c hc => hsound c (List.mem_cons_of_mem _ hc)) st

theorem procPath_id {g gT : Graph} {u v : Point}
    (hedges : g.edges.length ≤ 2) (hadj_uv : Adj g u v)
    (st : CandState) (p : List Point) (hnd : p.Nodup)
    (hh : p.head? = some v) (hl : p.getLast? = some u)
    (hch : List.Chain' (Adj gT) p)
    (hmono : ∀ x y, Adj gT x y → Adj g x y) :
    procPath st u p = st := by
  unfold procPath
  by_cases h2 : 2 ≤ p.length
  · rw [if_pos h2]
    simp only []
    have hpne : p ≠ [] := by
      intro h
      rw [h] at h2
      simp at h2
    have hdecomp : p.dropLast ++ [u] = p :=
      List.dropLast_append_getLast? u (by simp [hl])
    have hlast_eq : (u :: p).getLast? = some u := by
      conv_lhs => rw [← hdecomp]
      rw [← List.cons_append, List.getLast?_concat]
    have hcond : 1 < (u :: p).length ∧ (u :: p).head? = (u :: p).getLast? := by
      refine ⟨by simp; omega, ?_⟩
      rw [hlast_eq]
      rfl
    rw [if_pos hcond]
    have hdrop : (u :: p).dropLast = u :: p.dropLast := by
      conv_lhs => rw [← hdecomp]
      rw [← List.cons_append, List.dropLast_concat]
    rw [hdrop]
    by_cases h3 : 3 ≤ (u :: p.dropLast).length
    · exfalso
      have hndp : (p.dropLast ++ [u]).Nodup := by rwa [hdecomp]
      rw [List.nodup_append] at hndp
      obtain ⟨hq1, _, hdisj⟩ := hndp
      have hndq : (u :: p.dropLast).Nodup :=
        List.nodup_cons.2 ⟨fun hu => hdisj hu (List.mem_singleton_self u), hq1⟩
      have hchc : List.Chain' (Adj g) ((u :: p.dropLast) ++ (u :: p.dropLast).take 1) := by
        show List.Chain' (Adj g) (u :: p.dropLast ++ [u])
        rw [show u :: p.dropLast ++ [u] = u :: (p.dropLast ++ [u]) from rfl, hdecomp]
        rw [List.chain'_cons']
        refine ⟨?_, hch.imp hmono⟩
        intro b hb
        rw [hh] at hb
        simp only [Option.mem_some_iff] at hb
        rw [← hb]
        exact hadj_uv
      exact absurd (three_edges_of_cycle g (u :: p.dropLast) hndq h3 hchc) (by omega)
    · rw [if_neg h3]
  · rw [if_neg h2]

theorem strategy2Fold_id (cenv : CycEnv) (g : Graph)
    (hedges : g.edges.length ≤ 2) (hpaths : SimplePathsSound cenv) :
    ∀ st, strategy2Fold cenv g st = st := by
  unfold strategy2Fold
  suffices hgen : ∀ (es : List (Point × Point)), (∀ e ∈ es, e ∈ g.edges) →
      ∀ st, es.foldl (fun st e =>
        let gT := removeEdge g e.1 e.2
        if cenv.hasPath gT e.2 e.1 then
          (cenv.simplePaths gT e.2 e.1 15).foldl (fun st p => procPath st e.1 p) st
        else st) st = st by
    exact fun st => hgen g.edges (fun e he => he) st
  intro es
  induction es with
  | nil => intro _ st; rfl
  | cons e t ih =>
    intro hes st
    rw [List.foldl_cons]
    have hadj : Adj g e.1 e.2 :=
      (edgeMemB_iff _ _ _).2 ⟨e, hes e (List.mem_cons_self _ _), Or.inl ⟨rfl, rfl⟩⟩
    have hstep : (let gT := removeEdge g e.1 e.2
        if cenv.hasPath gT e.2 e.1 then
          (cenv.simplePaths gT e.2 e.1 15).foldl (fun st p => procPath st e.1 p) st
        else st) = st := by
      simp only []
      split
      · have hinner : ∀ (ps : List (List Point)),
            (∀ p ∈ ps, p ∈ cenv.simplePaths (removeEdge g e.1 e.2) e.2 e.1 15) →
            ∀ st, ps.foldl (fun st p => procPath st e.1 p) st = st := by
          intro ps
          induction ps with
          | nil => intro _ st; rfl
          | cons p pt ihp =>
            intro hps st
            rw [List.foldl_cons]
            obtain ⟨hnd, hh, hl, hchp⟩ :=
              hpaths (removeEdge g e.1 e.2) e.2 e.1 15 p
                (hps p (List.mem_cons_self _ _))
            rw [procPath_id hedges hadj st p hnd hh hl hchp
              (fun x y h => adj_removeEdge h)]
            exact ihp (fun q hq => hps q (List.mem_cons_of_mem _ hq)) st
        exact hinner _ (fun p hp => hp) st
      · rfl
    rw [hstep]
    exact ih (fun e' he' => hes e' (List.mem_cons_of_mem _ he')) st

theorem build_edges_le (segs : List WallSegment) (tol : ℚ) :
    (build_wall_graph segs tol).edges.length ≤ segs.length := by
  have hfold : ∀ (l : List (Point × Point)) (acc : List (Point × Point)),
      (l.foldl (fun es e => if edgeMemB es e.1 e.2 then es else es ++ [e]) acc).length
        ≤ acc.length + l.length := by
    intro l
    induction l with
    | nil => intro acc; simp
    | cons e t ih =>
      intro acc
      rw [List.foldl_cons]
      refine le_trans (ih _) ?_
      have hlen : (if edgeMemB acc e.1 e.2 then acc else acc ++ [e]).length
          ≤ acc.length + 1 := by
        split
        · omega
        · simp
      simp only [List.length_cons]
      omega
  calc (build_wall_graph segs tol).edges.length
      = (List.foldl (fun es e => if edgeMemB es e.1 e.2 then es else es ++ [e]) []
          (segs.map (fun s =>
            (snapPoint segs tol s.start, snapPoint segs tol s.stop)))).length :=
        congrArg List.length (foldl_build_edges segs tol segs ⟨[], []⟩)
    _ ≤ 0 + (segs.map (fun s =>
          (snapPoint segs tol s.start, snapPoint segs tol s.stop))).length :=
        hfold _ _
    _ = segs.length := by simp

/-! ## With one or two input segments, polygonize cannot produce a face
of positive area: every ring edge lies on an input segment, and the
shoelace sum of a loop supported on at most two segments vanishes. -/

theorem signedArea2_zero_of_le_two (segs : List WallSegment)
    (hn : segs.length ≤ 2) (f : List Point)
    (hidx : ∀ i : Fin f.length,
      PairOnInput segs (f.get i) (f.get (cnext i))) :
    signedArea2 f = 0 := by
  match segs, hn, hidx with
  | [], _, hidx =>
    refine Finset.sum_eq_zero (fun i _ => ?_)
    obtain ⟨s, hs, _⟩ := hidx i
    exact absurd hs (List.not_mem_nil s)
  | [sA], _, hidx =>
    exact sum_zero_of_pairs_on_two sA sA f.get (fun i => by
      obtain ⟨s, hs, h1, h2⟩ := hidx i
      rcases List.mem_singleton.1 hs with rfl
      exact Or.inl ⟨h1, h2⟩)
  | [sA, sB], _, hidx =>
    exact sum_zero_of_pairs_on_two sA sB f.get (fun i => by
      obtain ⟨s, hs, h1, h2⟩ := hidx i
      rcases List.mem_cons.1 hs with rfl | hs'
      · exact Or.inl ⟨h1, h2⟩
      · rcases List.mem_singleton.1 hs' with rfl
        exact Or.inr ⟨h1, h2⟩)
  | sA :: sB :: sC :: rest, hn, _ => simp at hn

theorem polygonize_empty_of_le_two (shenv : ShEnv) (segs : List WallSegment)
    (hn : segs.length ≤ 2) (hsound : PolygonizeSound shenv segs) :
    find_faces_using_polygonize shenv segs = [] := by
  rw [List.eq_nil_iff_forall_not_mem]
  intro face hface
  unfold find_faces_using_polygonize at hface
  rcases List.mem_filterMap.1 hface with ⟨rp, hrp, heq⟩
  by_cases hc1 : rp.is_valid ∧ 0 < rp.area
  · rw [if_pos hc1] at heq
    simp only [] at heq
    by_cases hc2 : 3 ≤ (ringCoords rp.exterior).length
    · obtain ⟨hchain, hclosed, harea⟩ := hsound rp hrp
      set f := ringCoords rp.exterior with hf
      have hfne : f ≠ [] := by
        intro h
        rw [h] at hc2
        simp at hc2
      have hcyc : List.Chain' (PairOnInput segs) (f ++ f.take 1) := by
        by_cases hcond : 1 < rp.exterior.length ∧
            rp.exterior.head? = rp.exterior.getLast?
        · have hexne : rp.exterior ≠ [] := by
            intro h
            rw [h] at hcond
            simp at hcond
          have hf' : f = rp.exterior.dropLast := by
            rw [hf]
            unfold ringCoords
            rw [if_pos hcond]
          have hdecomp : f ++ [rp.exterior.getLast hexne] = rp.exterior := by
            rw [hf']
            exact List.dropLast_append_getLast hexne
          obtain ⟨h0, f', hf0⟩ := List.exists_cons_of_ne_nil hfne
          have hhead1 : rp.exterior.head? = some (rp.exterior.getLast hexne) := by
            rw [hcond.2]
            exact List.getLast?_eq_getLast _ hexne
          have hhead2 : rp.exterior.head? = some h0 := by
            rw [← hdecomp, hf0]
            rfl
          have hx : rp.exterior.getLast hexne = h0 :=
            Option.some_inj.1 (hhead1.symm.trans hhead2)
          have htake : f.take 1 = [h0] := by
            rw [hf0]
            rfl
          rw [htake, ← hx, hdecomp]
          exact hchain
        · exfalso
          have hf' : f = rp.exterior := by
            rw [hf]
            unfold ringCoords
            rw [if_neg hcond]
          have hlen : ¬ 1 < rp.exterior.length := fun hl => hcond ⟨hl, hclosed⟩
          rw [hf'] at hc2
          omega
      have hidx := chain'_cyc_get f hfne hcyc
      have hzero : signedArea2 f = 0 := signedArea2_zero_of_le_two segs hn f hidx
      rw [hzero] at harea
      simp only [abs_zero, zero_div] at harea
      have hpos := hc1.2
      rw [harea] at hpos
      exact absurd hpos (lt_irrefl 0)
    · rw [if_neg hc2] at heq
      exact Option.noConfusion heq
  · rw [if_neg hc1] at heq
    exact Option.noConfusion heq

theorem find_faces_empty_of_two_edges (cenv : CycEnv) (shenv : ShEnv)
    (g : Graph) (hedges : g.edges.length ≤ 2)
    (hcys : SimpleCyclesSound cenv) (hpaths : SimplePathsSound cenv) :
    find_faces_in_planar_graph cenv shenv g = [] := by
  unfold find_faces_in_planar_graph
  by_cases hn : g.nodes.length < 3
  · rw [if_pos hn]
  · rw [if_neg hn]
    simp only []
    rw [strategy1Fold_id hedges (cenv.simpleCycles g)
        (fun c hc => hcys g c hc) candState0,
      strategy2Fold_id cenv g hedges hpaths candState0]
    rfl

/-! ## Claim C1 -/

/-- Claim C1, counterexample: on the spec's own example (the
0,0-1000,0-1000,1000-0,1000 square, tolerance 1.0) detect_rooms returns
no rooms at all, because the square's area 1000000 exceeds the filter's
max_area 900000 (the bound that exists to drop outer perimeters); the
environment used is sound for shapely's polygonize contract on these
segments. -/
theorem c1_spec_square_counterexample :
    detect_rooms cenv0 sqShEnv sqSegs 1 = [] ∧ PolygonizeSound sqShEnv sqSegs := by
  constructor
  · decide
  · intro rp hrp
    have hrp' : rp = ⟨true, 1000000, sqExterior⟩ := by
      simpa [sqShEnv] using hrp
    subst hrp'
    have m1 : (⟨(0, 0), (1000, 0), false⟩ : WallSegment) ∈ sqSegs := by decide
    have m2 : (⟨(1000, 0), (1000, 1000), false⟩ : WallSegment) ∈ sqSegs := by decide
    have m3 : (⟨(1000, 1000), (0, 1000), false⟩ : WallSegment) ∈ sqSegs := by decide
    have m4 : (⟨(0, 1000), (0, 0), false⟩ : WallSegment) ∈ sqSegs := by decide
    refine ⟨?_, rfl, ?_⟩
    · show List.Chain' (PairOnInput sqSegs) sqExterior
      refine List.chain'_cons.2 ⟨⟨_, m1, segOn_start ⟨(0, 0), (1000, 0), false⟩,
          segOn_stop ⟨(0, 0), (1000, 0), false⟩⟩,
        List.chain'_cons.2 ⟨⟨_, m2, segOn_start ⟨(1000, 0), (1000, 1000), false⟩,
            segOn_stop ⟨(1000, 0), (1000, 1000), false⟩⟩,
          List.chain'_cons.2 ⟨⟨_, m3, segOn_start ⟨(1000, 1000), (0, 1000), false⟩,
              segOn_stop ⟨(1000, 1000), (0, 1000), false⟩⟩,
            List.chain'_cons.2 ⟨⟨_, m4, segOn_start ⟨(0, 1000), (0, 0), false⟩,
                segOn_stop ⟨(0, 1000), (0, 0), false⟩⟩,
              List.chain'_singleton _⟩⟩⟩⟩
    · show (1000000 : ℚ) = |signedArea2 (ringCoords sqExterior)| / 2
      have h1 : ringCoords sqExterior = sqFace := by decide
      rw [h1, show sqFace = [((0 : ℚ), (0 : ℚ)), (1000, 0), (1000, 1000), (0, 1000)] from rfl,
        signedArea2_quad]
      norm_num [cross]

/-- Claim C1, amended: when Strategy A yields exactly one face and that
face passes the size filter (valid polygon, area within [100, 900000],
perimeter at least 40), detect_rooms returns exactly one room with id
room_001 whose bounding box is the face's normalized axis-aligned
bounds; the spec's 1000-square example itself is filtered out by
max_area and yields no rooms. -/
theorem c1_single_face_room (cenv : CycEnv) (shenv : ShEnv)
    (segs : List WallSegment) (tol : ℚ) (face : List Point)
    (hA : find_faces_using_polygonize shenv segs = [face])
    (h3 : 3 ≤ face.length)
    (hct : (shenv.polyOf face).ctor_ok = true)
    (hv : (shenv.polyOf face).is_valid = true)
    (ha1 : 100 ≤ (shenv.polyOf face).area)
    (ha2 : (shenv.polyOf face).area ≤ 900000)
    (hp : 40 ≤ (shenv.polyOf face).plen) :
    detect_rooms cenv shenv segs tol =
      [⟨"room_001", normalize_bounding_box (polygon_to_bounding_box face) (0, 1000),
        "Room 1", round2 (calculate_confidence_score shenv face 1 true)⟩] := by
  have hfaces : detect_rooms_faces cenv shenv segs tol = [face] := by
    unfold detect_rooms_faces
    rw [hA]
    rfl
  have hpred : (decide (3 ≤ face.length) && (shenv.polyOf face).ctor_ok &&
      (shenv.polyOf face).is_valid &&
      decide (100 ≤ (shenv.polyOf face).area ∧
              (shenv.polyOf face).area ≤ 900000 ∧
              40 ≤ (shenv.polyOf face).plen)) = true := by
    simp [h3, hct, hv, ha1, ha2, hp]
  have hvalid : filter_cycles shenv [face] 100 40 900000 = [face] := by
    unfold filter_cycles
    rw [List.filter_cons, if_pos hpred]
    rfl
  unfold detect_rooms
  rw [hfaces, hvalid, hA]
  simp only []
  have he : ([face] : List (List Point)).enum = [(0, face)] := rfl
  rw [he, List.map_cons, List.map_nil]
  have h1 : roomId (0 + 1) = "room_001" := by decide
  have h2 : ("Room " ++ toString (0 + 1) : String) = "Room 1" := by decide
  rw [h1, h2]
  rfl

/-- Witness for the amended C1 theorem at a 900-by-900 square (area
810000, inside the filter bounds). -/
theorem c1_single_face_room_witness :
    find_faces_using_polygonize shenv900 segs900 = [face900] ∧
    detect_rooms cenv0 shenv900 segs900 1 =
      [⟨"room_001", normalize_bounding_box (polygon_to_bounding_box face900) (0, 1000),
        "Room 1", round2 (calculate_confidence_score shenv900 face900 1 true)⟩] := by
  have hA : find_faces_using_polygonize shenv900 segs900 = [face900] := by decide
  exact ⟨hA, c1_single_face_room cenv0 shenv900 segs900 1 face900 hA (by decide)
    (by decide) (by decide) (by decide) (by decide) (by decide)⟩

/-! ## Claim C9 -/

theorem calc_score_bounds (shenv : ShEnv) (face : List Point) (n : Nat) (u : Bool) :
    0 ≤ calculate_confidence_score shenv face n u ∧
    calculate_confidence_score shenv face n u ≤ 1 := by
  simp only [calculate_confidence_score]
  split_ifs with h1 h2
  · norm_num
  · norm_num
  · exact ⟨le_max_left _ _, max_le (by norm_num) (min_le_left _ _)⟩

theorem round2_bounds {q : ℚ} (h0 : 0 ≤ q) (h1 : q ≤ 1) :
    0 ≤ round2 q ∧ round2 q ≤ 1 := by
  unfold round2
  constructor
  · apply div_nonneg _ (by norm_num)
    have h : (0 : ℤ) ≤ round (100 * q) := by
      rw [round_eq]
      exact Int.floor_nonneg.2 (by linarith)
    exact_mod_cast h
  · rw [div_le_one (by norm_num)]
    have h : round (100 * q) ≤ 100 := by
      rw [round_eq]
      calc ⌊100 * q + 1/2⌋ ≤ ⌊(201 : ℚ)/2⌋ := Int.floor_le_floor (by linarith)
        _ = 100 := by norm_num
    exact_mod_cast h

/-- Claim C9: every room produced by detect_rooms carries a confidence
in [0,1] which is the 2-decimal rounding of the scorer's value; the
scorer returns 0.2 when polygon construction raises, 0.3 when the
polygon is invalid, and otherwise its additive score clamped to [0,1];
the scorer's value always lies in [0,1]. -/
theorem c9_confidence_bounds (cenv : CycEnv) (shenv : ShEnv)
    (segs : List WallSegment) (tol : ℚ) (room : Room)
    (hroom : room ∈ detect_rooms cenv shenv segs tol)
    (face : List Point) (total : Nat) (used : Bool) :
    (0 ≤ room.confidence ∧ room.confidence ≤ 1) ∧
    (∃ f n u, room.confidence = round2 (calculate_confidence_score shenv f n u)) ∧
    ((shenv.polyOf face).ctor_ok = false →
      calculate_confidence_score shenv face total used = 1 / 5) ∧
    ((shenv.polyOf face).ctor_ok = true → (shenv.polyOf face).is_valid = false →
      calculate_confidence_score shenv face total used = 3 / 10) ∧
    ((shenv.polyOf face).ctor_ok = true → (shenv.polyOf face).is_valid = true →
      calculate_confidence_score shenv face total used =
        max 0 (min 1 (rawScore shenv face used))) ∧
    (0 ≤ calculate_confidence_score shenv face total used ∧
      calculate_confidence_score shenv face total used ≤ 1) := by
  have hconf : ∃ f n u,
      room.confidence = round2 (calculate_confidence_score shenv f n u) := by
    unfold detect_rooms at hroom
    rcases List.mem_map.1 hroom with ⟨ia, _, rfl⟩
    exact ⟨ia.2, _, _, rfl⟩
  refine ⟨?_, hconf, ?_, ?_, ?_, calc_score_bounds shenv face total used⟩
  · rcases hconf with ⟨f, n, u, he⟩
    rw [he]
    exact round2_bounds (calc_score_bounds shenv f n u).1 (calc_score_bounds shenv f n u).2
  · intro h
    simp only [calculate_confidence_score]
    rw [if_pos h]
  · intro h1 h2
    simp only [calculate_confidence_score]
    rw [if_neg (by simp [h1]), if_pos h2]
  · intro h1 h2
    simp only [calculate_confidence_score]
    rw [if_neg (by simp [h1]), if_neg (by simp [h2])]

/-- The room produced on the 900-square input: the 900-square bounding
box with confidence 0.85 (0.5 base + 0.2 polygonize + 0.15 compactness
- 0.05 large area + 0.05 vertex count). -/
def room900 : Room := ⟨"room_001", (0, 0, 900, 900), "Room 1", 17 / 20⟩

theorem detect_rooms_900 :
    detect_rooms cenv0 shenv900 segs900 1 = [room900] := by
  have hA : find_faces_using_polygonize shenv900 segs900 = [face900] := by decide
  have hfaces : detect_rooms_faces cenv0 shenv900 segs900 1 = [face900] := by
    unfold detect_rooms_faces
    rw [hA]
    rfl
  have hpred : (decide (3 ≤ face900.length) && (shenv900.polyOf face900).ctor_ok &&
      (shenv900.polyOf face900).is_valid &&
      decide (100 ≤ (shenv900.polyOf face900).area ∧
              (shenv900.polyOf face900).area ≤ 900000 ∧
              40 ≤ (shenv900.polyOf face900).plen)) = true := by decide
  have hvalid : filter_cycles shenv900 [face900] 100 40 900000 = [face900] := by
    unfold filter_cycles
    rw [List.filter_cons, if_pos hpred]
    rfl
  have hbox : normalize_bounding_box (polygon_to_bounding_box face900) (0, 1000)
      = (0, 0, 900, 900) := by decide
  have hconf : round2 (calculate_confidence_score shenv900 face900 1 true) = 17 / 20 := by
    norm_num [calculate_confidence_score, rawScore, shenv900, face900,
      round2, round_eq, min_def, max_def]
  unfold detect_rooms
  rw [hfaces, hvalid, hA]
  simp only []
  have he : ([face900] : List (List Point)).enum = [(0, face900)] := rfl
  rw [he, List.map_cons, List.map_nil]
  have h1 : roomId (0 + 1) = "room_001" := by decide
  have h2 : ("Room " ++ toString (0 + 1) : String) = "Room 1" := by decide
  have hu : decide (0 < ([face900] : List (List Point)).length) = true := rfl
  have hlen : ([face900] : List (List Point)).length = 1 := rfl
  rw [h1, h2, hbox, hu, hlen, hconf]
  rfl

/-- Witness for the C9 theorem: the room produced on the 900-square
input, with the scorer evaluated at that face. -/
theorem c9_confidence_bounds_witness :
    (0 ≤ room900.confidence ∧ room900.confidence ≤ 1) ∧
    (∃ f n u, room900.confidence =
      round2 (calculate_confidence_score shenv900 f n u)) ∧
    ((shenv900.polyOf face900).ctor_ok = false →
      calculate_confidence_score shenv900 face900 1 true = 1 / 5) ∧
    ((shenv900.polyOf face900).ctor_ok = true →
      (shenv900.polyOf face900).is_valid = false →
      calculate_confidence_score shenv900 face900 1 true = 3 / 10) ∧
    ((shenv900.polyOf face900).ctor_ok = true →
      (shenv900.polyOf face900).is_valid = true →
      calculate_confidence_score shenv900 face900 1 true =
        max 0 (min 1 (rawScore shenv900 face900 true))) ∧
    (0 ≤ calculate_confidence_score shenv900 face900 1 true ∧
      calculate_confidence_score shenv900 face900 1 true ≤ 1) :=
  c9_confidence_bounds cenv0 shenv900 segs900 1 room900
    (by rw [detect_rooms_900]; exact List.mem_singleton_self _) face900 1 true

/-! ## Claim C10 -/

/-- Claim C10, counterexample: with a negative tolerance (a value the
claim's quantifier admits), the key (0,0) is mapped to itself, yet the
snapped target is not within tolerance of the key (a distance of 0 is
not at most -1), so the distance clause of the claim fails. -/
theorem c10_negative_tolerance_counterexample :
    snapPoint segsSnap (-1) (0, 0) = (0, 0) ∧
    (0, 0) ∈ endpointsOf segsSnap ∧
    sqrtLeB (dsq (0, 0) (snapPoint segsSnap (-1) (0, 0))) (-1) = false := by
  decide

/-- Claim C10, amended: the snapping map is idempotent on every point
(keys go to canonical points which map to themselves, other points are
fixed), every value of the map is a key mapping to itself, and for every
nonnegative tolerance each endpoint is mapped to a point within
tolerance of it. -/
theorem c10_snap_idempotent (segs : List WallSegment) (tol : ℚ) (p : Point) :
    snapPoint segs tol (snapPoint segs tol p) = snapPoint segs tol p ∧
    (∀ q ∈ (snap_endpoints segs tol).map Prod.snd,
      alookup (snap_endpoints segs tol) q = some q) ∧
    (0 ≤ tol → p ∈ endpointsOf segs →
      sqrtLeB (dsq p (snapPoint segs tol p)) tol = true) := by
  obtain ⟨hinv, hkeys⟩ := snap_endpoints_invariant segs tol
  have hm : snap_endpoints segs tol =
      ((endpointsOf segs).foldl (snapStep tol) ([], [])).2 := rfl
  refine ⟨?_, ?_, ?_⟩
  · unfold snapPoint
    cases halk : alookup (snap_endpoints segs tol) p with
    | none => simp [halk]
    | some v =>
      have hv := hinv.2 _ (alookup_some_mem _ _ _ (hm ▸ halk))
      have hv1 : v ∈ (List.foldl (snapStep tol) ([], []) (endpointsOf segs)).1 :=
        hv.1
      have hlook := hinv.1 v hv1
      simp only [Option.getD_some]
      rw [← hm] at hlook
      rw [hlook]
      rfl
  · intro q hq
    rcases List.mem_map.1 hq with ⟨kv, hkv, rfl⟩
    have hv := hinv.2 _ (hm ▸ hkv)
    have hlook := hinv.1 _ hv.1
    rwa [← hm] at hlook
  · intro htol hp
    have hpk : p ∈ (snap_endpoints segs tol).map Prod.fst := by rw [hkeys]; exact hp
    obtain ⟨v, hv⟩ := alookup_isSome_of_mem_keys hpk
    have hmem := hinv.2 _ (alookup_some_mem _ _ _ (hm ▸ hv))
    unfold snapPoint
    rw [hv]
    simp only [Option.getD_some]
    rcases hmem.2 with h | h
    · have h' : v = p := h
      rw [h']
      unfold sqrtLeB
      refine decide_eq_true ⟨htol, ?_⟩
      have hz : dsq p p = 0 := by simp [dsq]
      rw [hz]
      exact mul_nonneg htol htol
    · exact h

/-- Witness for the amended C10 theorem: with tolerance 5, the endpoint
(3,4) of the single segment snaps to (0,0) (distance exactly 5), the map
is idempotent there, and the distance bound holds. -/
theorem c10_snap_idempotent_witness :
    (snapPoint segsSnap 5 (snapPoint segsSnap 5 (3, 4)) = snapPoint segsSnap 5 (3, 4)) ∧
    sqrtLeB (dsq (3, 4) (snapPoint segsSnap 5 (3, 4))) 5 = true := by
  have h := c10_snap_idempotent segsSnap 5 (3, 4)
  exact ⟨h.1, h.2.2 (by norm_num) (by decide)⟩

/-! ## Claim C2 -/

/-- Claim C2, counterexample: filter_cycles discards the self-intersecting
bowtie face outright even though its polygon is repairable (valid after
buffer(0)) with area and perimeter inside the thresholds — so the face
filter does not attempt the zero-width repair the spec describes. -/
theorem c2_repairable_discarded_counterexample :
    filter_cycles bowtieEnv [bowtie] 100 40 900000 = [] ∧
    (bowtieEnv.polyOf bowtie).ctor_ok = true ∧
    (bowtieEnv.polyOf bowtie).is_valid = false ∧
    (bowtieEnv.buffer0 bowtie).is_valid = true ∧
    100 ≤ (bowtieEnv.buffer0 bowtie).area ∧
    (bowtieEnv.buffer0 bowtie).area ≤ 900000 ∧
    40 ≤ (bowtieEnv.buffer0 bowtie).plen := by
  decide

/-- Claim C2, amended: a face survives filter_cycles iff it is one of the
inputs with at least 3 vertices whose polygon construction succeeds, is
valid as constructed (no repair is attempted: the buffer0 data of the
environment is never consulted), and whose area and perimeter meet the
thresholds. -/
theorem c2_filter_membership (shenv : ShEnv) (c : List Point)
    (cycles : List (List Point)) (a p A : ℚ) :
    c ∈ filter_cycles shenv cycles a p A ↔
      c ∈ cycles ∧ 3 ≤ c.length ∧ (shenv.polyOf c).ctor_ok = true ∧
        (shenv.polyOf c).is_valid = true ∧ a ≤ (shenv.polyOf c).area ∧
        (shenv.polyOf c).area ≤ A ∧ p ≤ (shenv.polyOf c).plen := by
  simp [filter_cycles, List.mem_filter, Bool.and_eq_true, decide_eq_true_eq,
    and_assoc]

/-! ## Claim C3 -/

/-- Claim C3, counterexample: two identical segments between the same
endpoints produce a wall graph with a single edge, not one parallel edge
per segment — the built graph is a simple graph and collapses
multi-edges, so the edge count (1) differs from the number of
non-degenerate snapped segments (2). -/
theorem c3_parallel_edges_counterexample :
    (build_wall_graph dupSegs 1).edges.length = 1 ∧
    (dupSegs.filter (fun s =>
      decide (snapPoint dupSegs 1 s.start ≠ snapPoint dupSegs 1 s.stop))).length
      = 2 := by
  constructor
  · rw [build_dup]
    rfl
  · simp only [snapPoint_dup_id]
    decide

/-- Claim C3, amended: the wall graph's edge list is exactly the
undirected deduplication of the snapped endpoint pairs of the segments —
segments snapping to the same unordered node pair are collapsed into a
single edge, and an unordered pair is an edge iff some segment snaps to
it. -/
theorem c3_edges_collapse (segs : List WallSegment) (tol : ℚ) :
    (build_wall_graph segs tol).edges =
      undirDedup (segs.map (fun s =>
        (snapPoint segs tol s.start, snapPoint segs tol s.stop))) ∧
    ∀ u v, edgeMemB (build_wall_graph segs tol).edges u v = true ↔
      ∃ s ∈ segs,
        (snapPoint segs tol s.start = u ∧ snapPoint segs tol s.stop = v) ∨
        (snapPoint segs tol s.start = v ∧ snapPoint segs tol s.stop = u) := by
  constructor
  · exact foldl_build_edges segs tol segs ⟨[], []⟩
  · intro u v
    rw [show (build_wall_graph segs tol).edges =
        List.foldl (fun es e => if edgeMemB es e.1 e.2 then es else es ++ [e]) []
          (segs.map (fun s =>
            (snapPoint segs tol s.start, snapPoint segs tol s.stop))) from
      foldl_build_edges segs tol segs ⟨[], []⟩]
    rw [undirDedup_foldl_mem]
    simp [edgeMemB]

/-! ## Claim C4 -/

/-- Claim C4, counterexample: the simple-cycle enumeration of Strategy B
keeps a 21-node cycle in the candidate set (no upper cap of 20 exists in
the code), and that 21-node cycle is a genuine simple cycle of the wall
graph built from 21 ring segments, so networkx's enumeration of the
directed closure does produce it. -/
theorem c4_no_upper_cap_counterexample :
    (strategy1Fold [pts21] candState0).cycles = [pts21] ∧
    20 < pts21.length ∧
    isCycleListB graph21 pts21 = true ∧
    build_wall_graph segs21 1 = graph21 := by
  exact ⟨by decide, by decide, by decide, build_segs21⟩

/-- Claim C4, amended: the simple-cycle processing of Strategy B enforces
only the lower bound — every cycle it adds to the candidate set has at
least 3 nodes; there is no upper cap (the only length cap in Strategy B
is the cutoff 15 passed to the per-edge simple-path search). -/
theorem c4_lower_bound_only (raw : List (List Point)) :
    ∀ (st : CandState), (∀ c ∈ st.cycles, 3 ≤ c.length) →
      ∀ c ∈ (strategy1Fold raw st).cycles, 3 ≤ c.length := by
  induction raw with
  | nil => exact fun st h => h
  | cons r t ih =>
    intro st h
    refine ih _ ?_
    intro c hc
    rcases procRawCycle_mem hc with h1 | h1
    · exact h c h1
    · exact h1

/-- Witness for the amended C4 theorem at the concrete 21-cycle input. -/
theorem c4_lower_bound_only_witness :
    pts21 ∈ (strategy1Fold [pts21] candState0).cycles ∧ 3 ≤ pts21.length := by
  refine ⟨by decide, ?_⟩
  exact c4_lower_bound_only [pts21] candState0 (fun c hc => nomatch hc) pts21
    (by decide)

/-! ## Claim C5 -/

/-- Claim C5, counterexample: on an open 3-segment polyline both Strategy
A (polygonize) and the Strategy B graph traversal yield nothing, and the
face list detect_rooms hands to the filter is the empty list — the
cycle-basis last resort is not applied (and indeed the wall graph has no
simple cycle at all, so networkx's enumerations are genuinely empty
here). -/
theorem c5_empty_fallback_counterexample :
    find_faces_using_polygonize shenv0 segs3 = [] ∧
    find_faces_in_planar_graph cenv0 shenv0 (build_wall_graph segs3 1) = [] ∧
    detect_rooms_faces cenv0 shenv0 segs3 1 = [] ∧
    hasAnySimpleCycle (build_wall_graph segs3 1) = false := by
  have h1 : find_faces_using_polygonize shenv0 segs3 = [] := rfl
  refine ⟨h1, ?_, ?_, ?_⟩
  · rw [build_segs3]
    decide
  · unfold detect_rooms_faces
    rw [h1, build_segs3]
    decide
  · rw [build_segs3]
    decide

/-- Claim C5, amended: whenever Strategy A yields no faces and the graph
traversal also yields no faces, detect_rooms hands the empty list to the
filter and returns no rooms; the fundamental-cycle-basis fallback lives
only in detect_cycles and in the traversal's exception handler, which
the detect_rooms path does not reach. -/
theorem c5_empty_traversal_empty_faces (cenv : CycEnv) (shenv : ShEnv)
    (segs : List WallSegment) (tol : ℚ)
    (hA : find_faces_using_polygonize shenv segs = [])
    (hB : find_faces_in_planar_graph cenv shenv (build_wall_graph segs tol) = []) :
    detect_rooms_faces cenv shenv segs tol = [] ∧
    detect_rooms cenv shenv segs tol = [] := by
  have hfaces : detect_rooms_faces cenv shenv segs tol = [] := by
    unfold detect_rooms_faces
    rw [hA]
    simpa using hB
  refine ⟨hfaces, ?_⟩
  unfold detect_rooms
  rw [hfaces]
  rfl

/-- Witness for the amended C5 theorem at the open-polyline input. -/
theorem c5_empty_traversal_empty_faces_witness :
    detect_rooms_faces cenv0 shenv0 segs3 1 = [] ∧
    detect_rooms cenv0 shenv0 segs3 1 = [] :=
  c5_empty_traversal_empty_faces cenv0 shenv0 segs3 1 rfl
    (by rw [build_segs3]; decide)

/-! ## Claim C6 -/

/-- Claim C6: on any input of one or two segments, detect_rooms returns
the empty room list (and, the model being total, no error is raised).
The library environments are assumed sound for the documented contracts
of shapely polygonize (rings run along input segments with shoelace
area) and networkx cycle/path enumeration: a ring supported on at most
two segments has zero area, so Strategy A finds nothing, and a graph
with at most two edges has no simple cycle of length 3, so the
traversal strategies collect nothing either. -/
theorem c6_small_input_no_rooms (cenv : CycEnv) (shenv : ShEnv)
    (segs : List WallSegment) (tol : ℚ)
    (hn : segs.length = 1 ∨ segs.length = 2)
    (hpoly : PolygonizeSound shenv segs)
    (hcys : SimpleCyclesSound cenv) (hpaths : SimplePathsSound cenv) :
    detect_rooms cenv shenv segs tol = [] := by
  have hn2 : segs.length ≤ 2 := by rcases hn with h | h <;> omega
  have hA : find_faces_using_polygonize shenv segs = [] :=
    polygonize_empty_of_le_two shenv segs hn2 hpoly
  have hedges : (build_wall_graph segs tol).edges.length ≤ 2 :=
    le_trans (build_edges_le segs tol) hn2
  have hB : find_faces_in_planar_graph cenv shenv (build_wall_graph segs tol) = [] :=
    find_faces_empty_of_two_edges cenv shenv _ hedges hcys hpaths
  have hfaces : detect_rooms_faces cenv shenv segs tol = [] := by
    unfold detect_rooms_faces
    rw [hA]
    simpa using hB
  unfold detect_rooms
  rw [hfaces]
  rfl

/-- Witness for the C6 theorem: a single segment with the trivial
library environments, whose soundness hypotheses hold vacuously. -/
theorem c6_small_input_no_rooms_witness :
    detect_rooms cenv0 shenv0 segsSnap 1 = [] :=
  c6_small_input_no_rooms cenv0 shenv0 segsSnap 1 (Or.inl rfl)
    (fun rp hrp => absurd hrp (List.not_mem_nil rp))
    (fun g c hc => absurd hc (List.not_mem_nil c))
    (fun g u v cut p hp => absurd hp (List.not_mem_nil p))

/-! ## Claim C7 -/

/-- The uniform scale factor computed by normalize_bounding_box for an
out-of-range box with positive width and height. -/
def uniformScale (x0 y0 x1 y1 lo hi : ℚ) : ℚ :=
  min ((hi - lo) / (x1 - x0)) ((hi - lo) / (y1 - y0))

/-- Claim C7, counterexample: the box (0,0,1000,2000) does not fit
(0,1000), has positive width and height, yet normalize returns
(250,500,750,1000): the clamp changes the 1:2 aspect ratio to 1:1, so
the result is not the claimed uniformly scaled box. -/
theorem c7_aspect_counterexample :
    normalize_bounding_box (0, 0, 1000, 2000) (0, 1000) = (250, 500, 750, 1000) ∧
    ¬((0 : ℚ) ≥ 0 ∧ (1000 : ℚ) ≤ 1000 ∧ (0 : ℚ) ≥ 0 ∧ (2000 : ℚ) ≤ 1000) ∧
    (750 - 250 : ℚ) * (2000 - 0) ≠ (1000 - 0 : ℚ) * (1000 - 500) := by
  refine ⟨?_, by norm_num, by norm_num⟩
  norm_num [normalize_bounding_box]

/-- Claim C7, amended: for an out-of-range box with positive width and
height, normalize scales uniformly about the center and then clamps; when
the scaled centered box already lies inside the target range (so the
clamp does not bind), the result is exactly the uniformly scaled box and
the aspect ratio is preserved. -/
theorem c7_unclamped_uniform_scaling (x0 y0 x1 y1 lo hi : ℚ)
    (hfit : ¬(x0 ≥ lo ∧ x1 ≤ hi ∧ y0 ≥ lo ∧ y1 ≤ hi))
    (hw : 0 < x1 - x0) (hh : 0 < y1 - y0)
    (hx1 : lo ≤ (x0 + x1) / 2 - (x1 - x0) * uniformScale x0 y0 x1 y1 lo hi / 2)
    (hx2 : (x0 + x1) / 2 + (x1 - x0) * uniformScale x0 y0 x1 y1 lo hi / 2 ≤ hi)
    (hy1 : lo ≤ (y0 + y1) / 2 - (y1 - y0) * uniformScale x0 y0 x1 y1 lo hi / 2)
    (hy2 : (y0 + y1) / 2 + (y1 - y0) * uniformScale x0 y0 x1 y1 lo hi / 2 ≤ hi) :
    normalize_bounding_box (x0, y0, x1, y1) (lo, hi) =
      ((x0 + x1) / 2 - (x1 - x0) * uniformScale x0 y0 x1 y1 lo hi / 2,
       (y0 + y1) / 2 - (y1 - y0) * uniformScale x0 y0 x1 y1 lo hi / 2,
       (x0 + x1) / 2 + (x1 - x0) * uniformScale x0 y0 x1 y1 lo hi / 2,
       (y0 + y1) / 2 + (y1 - y0) * uniformScale x0 y0 x1 y1 lo hi / 2) ∧
    ((x0 + x1) / 2 + (x1 - x0) * uniformScale x0 y0 x1 y1 lo hi / 2 -
        ((x0 + x1) / 2 - (x1 - x0) * uniformScale x0 y0 x1 y1 lo hi / 2)) *
      (y1 - y0) =
    (x1 - x0) *
      ((y0 + y1) / 2 + (y1 - y0) * uniformScale x0 y0 x1 y1 lo hi / 2 -
        ((y0 + y1) / 2 - (y1 - y0) * uniformScale x0 y0 x1 y1 lo hi / 2)) := by
  simp only [uniformScale] at hx1 hx2 hy1 hy2 ⊢
  constructor
  · have hwz : ¬(x1 - x0 = 0 ∨ y1 - y0 = 0) := by
      rintro (h | h) <;> linarith
    simp only [normalize_bounding_box]
    rw [if_neg hfit, if_neg hwz, if_pos hw, if_pos hh]
    set sc := (hi - lo) / (x1 - x0) ⊓ (hi - lo) / (y1 - y0) with hsc
    rw [max_eq_right hx1, max_eq_right hy1]
    have ex : (x0 + x1) / 2 - (x1 - x0) * sc / 2 + (x1 - x0) * sc =
        (x0 + x1) / 2 + (x1 - x0) * sc / 2 := by ring
    have ey : (y0 + y1) / 2 - (y1 - y0) * sc / 2 + (y1 - y0) * sc =
        (y0 + y1) / 2 + (y1 - y0) * sc / 2 := by ring
    rw [ex, ey, min_eq_right hx2, min_eq_right hy2]
  · ring

/-- Witness for the amended C7 theorem: the box (-500,400,1500,900) is
out of range, the scaled centered box fits, and the result (0,525,1000,775)
has the same 4:1 aspect ratio as the input. -/
theorem c7_unclamped_uniform_scaling_witness :
    normalize_bounding_box (-500, 400, 1500, 900) (0, 1000) = (0, 525, 1000, 775) ∧
    (1000 - 0 : ℚ) * (900 - 400) = (1500 - (-500) : ℚ) * (775 - 525) := by
  have hs : uniformScale (-500) 400 1500 900 0 1000 = 1 / 2 := by
    norm_num [uniformScale, min_def]
  have h := c7_unclamped_uniform_scaling (-500) 400 1500 900 0 1000
    (by norm_num) (by norm_num) (by norm_num) (by rw [hs]; norm_num)
    (by rw [hs]; norm_num) (by rw [hs]; norm_num) (by rw [hs]; norm_num)
  refine ⟨?_, by norm_num⟩
  rw [h.1, hs]
  norm_num

/-! ## Claim C8 -/

/-- Claim C8: normalize_bounding_box with target (0,1000) is the identity
both on boxes already inside the target range and on degenerate boxes of
zero width or zero height. -/
theorem c8_normalize_identity (x0 y0 x1 y1 : ℚ) :
    ((0 ≤ x0 ∧ x1 ≤ 1000 ∧ 0 ≤ y0 ∧ y1 ≤ 1000) →
      normalize_bounding_box (x0, y0, x1, y1) (0, 1000) = (x0, y0, x1, y1)) ∧
    ((x1 - x0 = 0 ∨ y1 - y0 = 0) →
      normalize_bounding_box (x0, y0, x1, y1) (0, 1000) = (x0, y0, x1, y1)) := by
  constructor
  · intro h
    simp only [normalize_bounding_box]
    rw [if_pos]
    exact ⟨h.1, h.2.1, h.2.2.1, h.2.2.2⟩
  · intro h
    simp only [normalize_bounding_box]
    by_cases hin : x0 ≥ 0 ∧ x1 ≤ 1000 ∧ y0 ≥ 0 ∧ y1 ≤ 1000
    · rw [if_pos hin]
    · rw [if_neg hin, if_pos h]

/-- Witness for C8, at an in-range box and at a degenerate box. -/
theorem c8_normalize_identity_witness :
    normalize_bounding_box (1, 2, 3, 4) (0, 1000) = (1, 2, 3, 4) ∧
    normalize_bounding_box (-5, 0, -5, 7000) (0, 1000) = (-5, 0, -5, 7000) :=
  ⟨(c8_normalize_identity 1 2 3 4).1 (by norm_num),
   (c8_normalize_identity (-5) 0 (-5) 7000).2 (by norm_num)⟩

end RoomDetection
